import Mathlib

/-!
# Hybrid backend: placement pass, compile and call

A shallow embedding of `runtime::hybrid::HybridBackend` (`compile`, `call`) and of
`pass::AssignPlacement::run_on_node`.

Conventions of the embedding.

* `shared_ptr<Node>`, `shared_ptr<Function>` and `shared_ptr<runtime::Tensor>` are
  identities; they are natural numbers here, and the objects they point to live in a
  `Graph` (functions and node attributes) that is threaded explicitly.
* `std::unordered_map<K, V>` is a function `K → Option V`; `m[k] = v` is `assign`,
  `m.find(k) != m.end()` is a match on `some`, and `m.at(k)` on a missing key raises
  `Err.key_not_found`.
* An exception is a value of `Err`; every operation returns its outcome together with
  the state it leaves behind, so that the state after a failure can be inspected.
* Indexing a `std::vector` past its end with `operator[]` is undefined behaviour in C++;
  the embedding stops there with `Err.out_of_range`.
* The backends, the tensors, `clone_function`, the pass manager and
  `split_function_by_placement_size` are external collaborators: their behaviour is a
  parameter (`Env`).  Every backend operation the engine performs is appended to a log.
-/

namespace ngraph

abbrev NodeId := Nat
abbrev FuncId := Nat
abbrev Tensor := Nat
abbrev Placement := Nat
abbrev ElementType := Nat
abbrev Shape := List Nat

/-- Attributes of one node that the engine reads or writes. -/
structure Node where
  placement : Placement
  placement_index : Nat
  element_type : ElementType
  shape : Shape
  deriving DecidableEq, Repr

/-- A `Function`: its ordered parameters and results, and `get_ops()`. -/
structure Function where
  parameters : List NodeId
  results : List NodeId
  ops : List NodeId
  deriving DecidableEq, Repr

/-- The objects behind the shared pointers. -/
structure Graph where
  funcs : FuncId → Function
  nodes : NodeId → Node

/-- Exceptions (and the fault of an unchecked vector index). -/
inductive Err where
  | compile_before_call
  | out_of_range
  | key_not_found
  | placement
  | graph (code : Nat)
  | backend (code : Nat)
  deriving DecidableEq, Repr

/-- Backend operations performed by the engine. `create_tensor` records the tensor
it returned (`none` when it raised). -/
inductive Event where
  | create_tensor (backend : Nat) (element_type : ElementType) (shape : Shape)
      (tensor : Option Tensor)
  | copy_from (dst src : Tensor)
  | compile (backend : Nat) (f : FuncId)
  | call_with_validate (backend : Nat) (f : FuncId) (outputs inputs : List Tensor)
  deriving DecidableEq, Repr

/-- The external collaborators. `σ` is the state of the backends (tensor storage,
compiled artefacts). Raised exceptions carry a code. Only the graph utilities and a
backend's `compile` may change the graph. -/
structure Env (σ : Type) where
  backend_count : Nat
  create_tensor : Nat → ElementType → Shape → σ → Except Nat Tensor × σ
  copy_from : Tensor → Tensor → σ → Except Nat Unit × σ
  backend_compile : Nat → FuncId → Graph × σ → Except Nat Unit × (Graph × σ)
  call_with_validate : Nat → FuncId → List Tensor → List Tensor → Graph → σ → Except Nat Bool × σ
  clone_function : FuncId → Graph → Except Nat FuncId × Graph
  run_passes : FuncId → Graph → Except Nat Unit × Graph
  split_function_by_placement_size :
    FuncId → Graph → Except Nat (List FuncId × (NodeId → Option NodeId)) × Graph

/-- The per-program compiled state. -/
structure FunctionInstance where
  m_function : FuncId
  m_sub_functions : List FuncId
  m_map_parameter_to_result : NodeId → Option NodeId

/-- The engine (`m_function_map`), the graph, the backends and the log. -/
structure World (σ : Type) where
  graph : Graph
  ext : σ
  m_function_map : FuncId → Option FunctionInstance
  log : List Event

/-- The assignment `m[k] = v`. -/
def assign {β : Type} (m : Nat → β) (k : Nat) (v : β) : Nat → β :=
  fun x => if x = k then v else m x

/-! ## `pass::AssignPlacement` -/

/-- The assignment `node->set_placement(p)`. -/
def set_placement (g : Graph) (node : NodeId) (p : Placement) : Graph :=
  { g with nodes := assign g.nodes node { g.nodes node with placement := p } }

/-- The method `pass::AssignPlacement::run_on_node`. The policy is a function of the node:
of its identity and of its attributes. -/
def AssignPlacement.run_on_node (m_placement_policy : NodeId → Node → Placement)
    (node : NodeId) (g : Graph) : Bool × Graph :=
  (false, set_placement g node (m_placement_policy node (g.nodes node)))

/-- Modelled from the spec: the pass manager that drives the pass is not among the
sources. The pass visits the nodes of a program one after the other, here in the order of
a list, with `run_on_node`; the flag is the disjunction of the returned flags. -/
def AssignPlacement.run_on_nodes (policy : NodeId → Node → Placement) :
    List NodeId → Graph → Bool × Graph
  | [], g => (false, g)
  | n :: ns, g =>
    let r := AssignPlacement.run_on_node policy n g
    let rs := AssignPlacement.run_on_nodes policy ns r.2
    (r.1 || rs.1, rs.2)

/-! ## `HybridBackend::compile` -/

/-- Modelled from the spec: `get_colocated_function_placement_size` (hybrid_util) is not
among the sources. A sub-function's nodes share one placement, and the placement index
written on the nodes is what lets later calls recover the backend index: the function
returns the placement index shared by the ops of the sub-function, and fails when there
is no op or when two ops disagree. -/
def get_colocated_function_placement_size (g : Graph) (f : FuncId) : Except Err Nat :=
  match (g.funcs f).ops with
  | [] => .error .placement
  | n :: rest =>
    if rest.all (fun m => (g.nodes m).placement_index == (g.nodes n).placement_index) then
      .ok (g.nodes n).placement_index
    else .error .placement

/-- The assignment `op->set_placement_index(p)`. -/
def set_placement_index (g : Graph) (op : NodeId) (p : Nat) : Graph :=
  { g with nodes := assign g.nodes op { g.nodes op with placement_index := p } }

/-- The loop `for (auto op : sub_function->get_ops()) op->set_placement_index(placement)`. -/
def reset_placement : List NodeId → Nat → Graph → Graph
  | [], _, g => g
  | op :: ops, p, g => reset_placement ops p (set_placement_index g op p)

/-- The loop of `compile` over the sub-functions (lines 88-100). -/
def compile_sub_functions {σ : Type} (E : Env σ) :
    List FuncId → World σ → Except Err Unit × World σ
  | [], w => (.ok (), w)
  | sub_function :: rest, w =>
    match get_colocated_function_placement_size w.graph sub_function with
    | .error e => (.error e, w)
    | .ok placement =>
      if placement < E.backend_count then
        let log1 := w.log ++ [Event.compile placement sub_function]
        match E.backend_compile placement sub_function (w.graph, w.ext) with
        | (.error c, st) => (.error (.backend c), { w with graph := st.1, ext := st.2, log := log1 })
        | (.ok (), st) =>
          compile_sub_functions E rest
            { w with
              graph := reset_placement (st.1.funcs sub_function).ops placement st.1
              ext := st.2
              log := log1 }
      else (.error .out_of_range, w)

/-- Lines 74-84 of `compile`: clone the function, run the placement pass on the clone,
split the clone; the instance holds the clone, the sub-functions and the boundary map. -/
def build_instance {σ : Type} (E : Env σ) (func : FuncId) (g : Graph) :
    Except Err FunctionInstance × Graph :=
  match E.clone_function func g with
  | (.error c, g1) => (.error (.graph c), g1)
  | (.ok m_function, g1) =>
    match E.run_passes m_function g1 with
    | (.error c, g2) => (.error (.graph c), g2)
    | (.ok (), g2) =>
      match E.split_function_by_placement_size m_function g2 with
      | (.error c, g3) => (.error (.graph c), g3)
      | (.ok split, g3) => (.ok ⟨m_function, split.1, split.2⟩, g3)

/-- The method `HybridBackend::compile`: the instance is inserted in `m_function_map`
(line 85) before the sub-functions are compiled; the handle is `func`. -/
def compile {σ : Type} (E : Env σ) (func : FuncId) (w : World σ) :
    Except Err FuncId × World σ :=
  match w.m_function_map func with
  | some _ => (.ok func, w)
  | none =>
    match build_instance E func w.graph with
    | (.error e, g) => (.error e, { w with graph := g })
    | (.ok inst, g) =>
      let r := compile_sub_functions E inst.m_sub_functions
        { w with graph := g, m_function_map := assign w.m_function_map func (some inst) }
      (r.1.map (fun _ => func), r.2)

/-! ## `HybridBackend::call` -/

/-- The state of one `call`: the node-to-tensor map, the backends and the log. -/
structure CallState (σ : Type) where
  map_node_to_tensor : NodeId → Option Tensor
  ext : σ
  log : List Event

/-- The loops `for (i < tensors.size()) map_node_to_tensor[nodes[i]] = tensors[i]`
(lines 122-129). -/
def seed_tensors : List NodeId → List Tensor → (NodeId → Option Tensor) →
    Except Err (NodeId → Option Tensor)
  | _, [], m => .ok m
  | [], _ :: _, _ => .error .out_of_range
  | n :: ns, t :: ts, m => seed_tensors ns ts (assign m n (some t))

/-- The loop over the parameters of a sub-function (lines 139-156); the tensors are
returned in the order in which they are pushed. -/
def prepare_parameters {σ : Type} (E : Env σ) (inst : FunctionInstance) (g : Graph)
    (backend : Nat) : List NodeId → CallState σ → Except Err (List Tensor) × CallState σ
  | [], s => (.ok [], s)
  | parameter_node :: rest, s =>
    match s.map_node_to_tensor parameter_node with
    | some t =>
      let r := prepare_parameters E inst g backend rest s
      (r.1.map (fun parameters => t :: parameters), r.2)
    | none =>
      match inst.m_map_parameter_to_result parameter_node with
      | none => (.error .key_not_found, s)
      | some result_node =>
        match s.map_node_to_tensor result_node with
        | none => (.error .key_not_found, s)
        | some result_tv =>
          match E.create_tensor backend (g.nodes parameter_node).element_type
              (g.nodes parameter_node).shape s.ext with
          | (.error c, x) =>
            (.error (.backend c),
              { s with
                ext := x
                log := s.log ++ [Event.create_tensor backend (g.nodes parameter_node).element_type
                  (g.nodes parameter_node).shape none] })
          | (.ok parameter_tv, x) =>
            let log1 := s.log ++
              [Event.create_tensor backend (g.nodes parameter_node).element_type
                (g.nodes parameter_node).shape (some parameter_tv),
               Event.copy_from parameter_tv result_tv]
            match E.copy_from parameter_tv result_tv x with
            | (.error c, x1) => (.error (.backend c), { s with ext := x1, log := log1 })
            | (.ok (), x1) =>
              let r := prepare_parameters E inst g backend rest
                { map_node_to_tensor := assign s.map_node_to_tensor parameter_node (some parameter_tv)
                  ext := x1
                  log := log1 }
              (r.1.map (fun parameters => parameter_tv :: parameters), r.2)

/-- The loop over the results of a sub-function (lines 159-173). -/
def prepare_results {σ : Type} (E : Env σ) (g : Graph) (backend : Nat) :
    List NodeId → CallState σ → Except Err (List Tensor) × CallState σ
  | [], s => (.ok [], s)
  | result_node :: rest, s =>
    match s.map_node_to_tensor result_node with
    | some t =>
      let r := prepare_results E g backend rest s
      (r.1.map (fun results => t :: results), r.2)
    | none =>
      match E.create_tensor backend (g.nodes result_node).element_type
          (g.nodes result_node).shape s.ext with
      | (.error c, x) =>
        (.error (.backend c),
          { s with
            ext := x
            log := s.log ++ [Event.create_tensor backend (g.nodes result_node).element_type
              (g.nodes result_node).shape none] })
      | (.ok result_tv, x) =>
        let r := prepare_results E g backend rest
          { map_node_to_tensor := assign s.map_node_to_tensor result_node (some result_tv)
            ext := x
            log := s.log ++ [Event.create_tensor backend (g.nodes result_node).element_type
              (g.nodes result_node).shape (some result_tv)] }
        (r.1.map (fun results => result_tv :: results), r.2)

/-- The two preparation loops of one sub-function: the result and the parameter
tensors that are handed to the backend, and the state in which it is invoked. -/
def prepare_tensors {σ : Type} (E : Env σ) (inst : FunctionInstance) (g : Graph)
    (backend : Nat) (sub_function : FuncId) (s : CallState σ) :
    Except Err (List Tensor × List Tensor) × CallState σ :=
  match prepare_parameters E inst g backend (g.funcs sub_function).parameters s with
  | (.error e, s1) => (.error e, s1)
  | (.ok parameters, s1) =>
    let r := prepare_results E g backend (g.funcs sub_function).results s1
    (r.1.map (fun results => (results, parameters)), r.2)

/-- The call `backend->call_with_validate(sub_function, results, parameters)` of line 176;
the value it returns is dropped, as in the source. -/
def invoke {σ : Type} (E : Env σ) (g : Graph) (backend : Nat) (sub_function : FuncId)
    (results parameters : List Tensor) (s : CallState σ) : Except Err Unit × CallState σ :=
  let log1 := s.log ++ [Event.call_with_validate backend sub_function results parameters]
  match E.call_with_validate backend sub_function results parameters g s.ext with
  | (.error c, x) => (.error (.backend c), { s with ext := x, log := log1 })
  | (.ok _, x) => (.ok (), { s with ext := x, log := log1 })

/-- The body of the loop over the sub-functions (lines 134-176). -/
def call_sub_function {σ : Type} (E : Env σ) (inst : FunctionInstance) (g : Graph)
    (sub_function : FuncId) (s : CallState σ) : Except Err Unit × CallState σ :=
  match get_colocated_function_placement_size g sub_function with
  | .error e => (.error e, s)
  | .ok placement =>
    if placement < E.backend_count then
      match prepare_tensors E inst g placement sub_function s with
      | (.error e, s1) => (.error e, s1)
      | (.ok tensors, s1) => invoke E g placement sub_function tensors.1 tensors.2 s1
    else (.error .out_of_range, s)

/-- The loop over the sub-functions (lines 132-177). -/
def call_sub_functions {σ : Type} (E : Env σ) (inst : FunctionInstance) (g : Graph) :
    List FuncId → CallState σ → Except Err Unit × CallState σ
  | [], s => (.ok (), s)
  | sub_function :: rest, s =>
    match call_sub_function E inst g sub_function s with
    | (.error e, s1) => (.error e, s1)
    | (.ok (), s1) => call_sub_functions E inst g rest s1

/-- The map built by lines 121-129: parameters of the clone to the inputs, then results
of the clone to the outputs. -/
def seed_map (g : Graph) (inst : FunctionInstance) (outputs inputs : List Tensor) :
    Except Err (NodeId → Option Tensor) :=
  match seed_tensors (g.funcs inst.m_function).parameters inputs (fun _ => none) with
  | .error e => .error e
  | .ok m => seed_tensors (g.funcs inst.m_function).results outputs m

/-- The method `HybridBackend::call`; `rc` is `true` and is never assigned again. -/
def call {σ : Type} (E : Env σ) (func : FuncId) (outputs inputs : List Tensor) (w : World σ) :
    Except Err Bool × World σ :=
  let rc := true
  match w.m_function_map func with
  | none => (.error .compile_before_call, w)
  | some inst =>
    match seed_map w.graph inst outputs inputs with
    | .error e => (.error e, w)
    | .ok m =>
      let r := call_sub_functions E inst w.graph inst.m_sub_functions
        { map_node_to_tensor := m, ext := w.ext, log := w.log }
      (r.1.map (fun _ => rc), { w with ext := r.2.ext, log := r.2.log })

/-! ## Requests served by an engine -/

/-- A request made to the engine. -/
inductive Request where
  | compile (func : FuncId)
  | call (func : FuncId) (outputs inputs : List Tensor)
  deriving DecidableEq, Repr

/-- The state after one request, whatever its outcome. -/
def serve {σ : Type} (E : Env σ) (w : World σ) : Request → World σ
  | .compile func => (compile E func w).2
  | .call func outputs inputs => (call E func outputs inputs w).2

/-- The state after a sequence of requests. -/
def serve_all {σ : Type} (E : Env σ) (w : World σ) (requests : List Request) : World σ :=
  requests.foldl (serve E) w

/-- A direct single-backend call, as the spec words it: the caller hands the function and
its own output and input tensors to `call_with_validate` of one backend, and gets the
backend's answer. -/
def direct_call {σ : Type} (E : Env σ) (backend : Nat) (f : FuncId)
    (outputs inputs : List Tensor) (w : World σ) : Except Err Bool × World σ :=
  match E.call_with_validate backend f outputs inputs w.graph w.ext with
  | (.error c, x) =>
    (.error (.backend c),
      { w with ext := x, log := w.log ++ [Event.call_with_validate backend f outputs inputs] })
  | (.ok rc, x) =>
    (.ok rc,
      { w with ext := x, log := w.log ++ [Event.call_with_validate backend f outputs inputs] })

/-- The invocations of a backend's `compile` in a log, oldest first: the index of the
backend and the function handed to it. -/
def compile_calls : List Event → List (Nat × FuncId)
  | [] => []
  | Event.compile b f :: rest => (b, f) :: compile_calls rest
  | _ :: rest => compile_calls rest

/-- The invocations of a backend's `call_with_validate` in a log, oldest first: the index
of the backend and the function handed to it. -/
def validate_calls : List Event → List (Nat × FuncId)
  | [] => []
  | Event.call_with_validate b f _ _ :: rest => (b, f) :: validate_calls rest
  | _ :: rest => validate_calls rest

/-! ## A two-backend example: `C = A + B` with `A` and `C` on backend 0, `B` on backend 1

Program 7 is cloned as function 100 with parameters `A` (node 1) and `B` (node 2), the
addition `C` (node 3) and its result (node 4). The partition is function 101 on backend
1 (`B` and its synthetic result, node 5) followed by function 102 on backend 0 (`A`, the
boundary parameter 6 standing in for `B`, `C` and the result 4); the boundary map pairs
parameter 6 with result 5. -/

/-- Tensor storage of the example backends: the next free tensor and one number per
tensor. -/
structure Memory where
  next : Tensor
  value : Tensor → Int

/-- The graph of the example after cloning and splitting. -/
def sample_graph : Graph where
  funcs := fun f =>
    if f = 100 then ⟨[1, 2], [4], [1, 2, 3, 4]⟩
    else if f = 101 then ⟨[2], [5], [2, 5]⟩
    else if f = 102 then ⟨[1, 6], [4], [1, 6, 3, 4]⟩
    else ⟨[], [], []⟩
  nodes := fun n => ⟨0, if n = 2 ∨ n = 5 then 1 else 0, 32, [1]⟩

/-- The backends of the example: `create_tensor` hands out the next free tensor,
`copy_from` copies the number, function 101 forwards its input, function 102 adds its two
inputs, and nothing raises on well-formed arguments. -/
def sample_env : Env Memory where
  backend_count := 2
  create_tensor := fun _ _ _ m => (.ok m.next, { m with next := m.next + 1 })
  copy_from := fun dst src m => (.ok (), { m with value := assign m.value dst (m.value src) })
  backend_compile := fun _ _ st => (.ok (), st)
  call_with_validate := fun _ f outputs inputs _ m =>
    match f, outputs, inputs with
    | 101, [o], [i] => (.ok true, { m with value := assign m.value o (m.value i) })
    | 102, [o], [a, b] => (.ok true, { m with value := assign m.value o (m.value a + m.value b) })
    | _, _, _ => (.error 1, m)
  clone_function := fun _ g => (.ok 100, g)
  run_passes := fun _ g => (.ok (), g)
  split_function_by_placement_size := fun _ g =>
    (.ok ([101, 102], fun p => if p = 6 then some 5 else none), g)

/-- A fresh engine: nothing compiled, nothing logged; tensor 0 holds 3 and tensor 1
holds 4. -/
def sample_world : World Memory where
  graph := sample_graph
  ext := { next := 10, value := fun t => if t = 0 then 3 else if t = 1 then 4 else 0 }
  m_function_map := fun _ => none
  log := []

/-- The example engine after `compile` of program 7. -/
def compiled_world : World Memory :=
  (compile sample_env 7 sample_world).2

/-- The instance that `compile` stores for program 7 in the example. -/
def sample_instance : FunctionInstance :=
  ⟨100, [101, 102], fun p => if p = 6 then some 5 else none⟩

/-- The node-to-tensor map of the example call with output tensor 2 and input tensors
0 and 1. -/
def sample_seed : NodeId → Option Tensor :=
  assign (assign (assign (fun _ => none) 1 (some 0)) 2 (some 1)) 4 (some 2)

/-- The state of the example call when function 101 has run and function 102 is next. -/
def sample_state : CallState Memory :=
  (call_sub_functions sample_env sample_instance compiled_world.graph [101]
    { map_node_to_tensor := sample_seed, ext := compiled_world.ext, log := compiled_world.log }).2

/-- A node that is an op of neither function 101 nor function 102. -/
def fresh_node (gr : Graph) : NodeId :=
  ((gr.funcs 101).ops ++ (gr.funcs 102).ops).sum + 1

/-- The graph in which op 3 of function 102 is replaced by a new node whose placement
index is 99. -/
def replace_op (gr : Graph) : Graph where
  funcs := assign gr.funcs 102
    ⟨(gr.funcs 102).parameters, (gr.funcs 102).results,
      (gr.funcs 102).ops.map (fun n => if n = 3 then fresh_node gr else n)⟩
  nodes := assign gr.nodes (fresh_node gr) ⟨0, 99, 32, [1]⟩

/-- The example backends, except that compiling function 102 replaces its op 3 by a new
node, whose placement index is not the one of the sub-function. -/
def replacing_env : Env Memory :=
  { sample_env with
    backend_compile := fun _ f st =>
      if f = 102 then (.ok (), (replace_op st.1, st.2)) else (.ok (), st) }

/-- A single-backend engine state: program 7 is cached with the one sub-function 100,
the clone itself, placed on backend 0. -/
def single_world : World Memory where
  graph :=
    { funcs := fun f => if f = 100 then ⟨[1, 2], [4], [1, 2, 3, 4]⟩ else ⟨[], [], []⟩
      nodes := fun _ => ⟨0, 0, 32, [1]⟩ }
  ext := { next := 10, value := fun t => if t = 0 then 3 else if t = 1 then 4 else 0 }
  m_function_map := fun f => if f = 7 then some ⟨100, [100], fun _ => none⟩ else none
  log := []

/-- The backend of the single-backend example: function 100 adds its two inputs. -/
def single_env : Env Memory :=
  { sample_env with
    backend_count := 1
    call_with_validate := fun _ f outputs inputs _ m =>
      match f, outputs, inputs with
      | 100, [o], [a, b] =>
        (.ok true, { m with value := assign m.value o (m.value a + m.value b) })
      | _, _, _ => (.error 1, m) }

/-- The backend of the single-backend example, except that `call_with_validate` reports
failure (returns `false`) without raising. -/
def single_reporting_env : Env Memory :=
  { single_env with call_with_validate := fun _ _ _ _ _ m => (.ok false, m) }

/-- The example backends, except that `call_with_validate` reports failure (returns
`false`) without raising. -/
def reporting_env : Env Memory :=
  { sample_env with call_with_validate := fun _ _ _ _ _ m => (.ok false, m) }

/-- The example backends, except that compiling function 102 raises. -/
def failing_compile_env : Env Memory :=
  { sample_env with
    backend_compile := fun _ f st => if f = 102 then (.error 9, st) else (.ok (), st) }

/-- The example with a single registered backend: function 101 is placed on backend 0 and
function 102 on the unregistered index 1. -/
def one_backend_env : Env Memory :=
  { sample_env with backend_count := 1 }

/-- The graph of the example with the two placements exchanged. -/
def swapped_graph : Graph :=
  { sample_graph with nodes := fun n => ⟨0, if n = 2 ∨ n = 5 then 0 else 1, 32, [1]⟩ }

/-- A fresh engine over `swapped_graph`. -/
def swapped_world : World Memory :=
  { sample_world with graph := swapped_graph }

/-- No backend operation of a call raises: `create_tensor`, `copy_from` and
`call_with_validate` return normally on every argument. -/
def NoRaise {σ : Type} (E : Env σ) : Prop :=
  (∀ b e sh x, ∃ t, (E.create_tensor b e sh x).1 = .ok t) ∧
  (∀ d src x, (E.copy_from d src x).1 = .ok ()) ∧
  (∀ b f o i g x, ∃ rc, (E.call_with_validate b f o i g x).1 = .ok rc)

/-- The sub-functions of a list are separate in a graph: each has an op, and no node is
an op of two of them (the partition puts every node in one sub-function). -/
def Separate (gr : Graph) (subs : List FuncId) : Prop :=
  (∀ f ∈ subs, (gr.funcs f).ops ≠ []) ∧
  ∀ f ∈ subs, ∀ g ∈ subs, f ≠ g → ∀ n ∈ (gr.funcs f).ops, n ∉ (gr.funcs g).ops

/-- A backend `compile` is local to the sub-function it is given: whatever nodes it
replaces there, the sub-functions stay separate, and every other sub-function keeps its
ops and the attributes of its ops. -/
def CompileLocal {σ : Type} (E : Env σ) (subs : List FuncId) : Prop :=
  ∀ b f st st1, f ∈ subs → Separate st.1 subs → E.backend_compile b f st = (.ok (), st1) →
    Separate st1.1 subs ∧
    ∀ g ∈ subs, g ≠ f → st1.1.funcs g = st.1.funcs g ∧
      ∀ n ∈ (st.1.funcs g).ops, st1.1.nodes n = st.1.nodes n

/-! ## Basic facts -/

@[simp] theorem assign_same {β : Type} (m : Nat → β) (k : Nat) (v : β) : assign m k v k = v := by
  simp [assign]

@[simp] theorem assign_other {β : Type} (m : Nat → β) (k x : Nat) (v : β) (h : x ≠ k) :
    assign m k v x = m x := by
  simp [assign, h]

/-! ## The placement pass -/

theorem run_on_nodes_flag (policy : NodeId → Node → Placement) (order : List NodeId) (g : Graph) :
    (AssignPlacement.run_on_nodes policy order g).1 = false := by
  induction order generalizing g with
  | nil => rfl
  | cons n ns ih => simp [AssignPlacement.run_on_nodes, AssignPlacement.run_on_node, ih]

theorem run_on_nodes_funcs (policy : NodeId → Node → Placement) (order : List NodeId) (g : Graph) :
    (AssignPlacement.run_on_nodes policy order g).2.funcs = g.funcs := by
  induction order generalizing g with
  | nil => rfl
  | cons n ns ih =>
    simp [AssignPlacement.run_on_nodes, AssignPlacement.run_on_node, ih, set_placement]

theorem run_on_nodes_untouched (policy : NodeId → Node → Placement) (order : List NodeId)
    (g : Graph) (m : NodeId) (hm : m ∉ order) :
    (AssignPlacement.run_on_nodes policy order g).2.nodes m = g.nodes m := by
  induction order generalizing g with
  | nil => rfl
  | cons n ns ih =>
    have h1 : m ≠ n := fun h => hm (by simp [h])
    have h2 : m ∉ ns := fun h => hm (by simp [h])
    simp [AssignPlacement.run_on_nodes, AssignPlacement.run_on_node, ih _ h2, set_placement, h1]

theorem run_on_nodes_visited (policy : NodeId → Node → Placement) (order : List NodeId)
    (g : Graph) (hnd : order.Nodup) (m : NodeId) (hm : m ∈ order) :
    (AssignPlacement.run_on_nodes policy order g).2.nodes m =
      { g.nodes m with placement := policy m (g.nodes m) } := by
  induction order generalizing g with
  | nil => simp at hm
  | cons n ns ih =>
    have hn : n ∉ ns := (List.nodup_cons.mp hnd).1
    have hns : ns.Nodup := (List.nodup_cons.mp hnd).2
    rcases List.mem_cons.mp hm with h | h
    · subst h
      have h1 := run_on_nodes_untouched policy ns
        (AssignPlacement.run_on_node policy m g).2 m hn
      simp only [AssignPlacement.run_on_nodes]
      rw [h1]
      simp [AssignPlacement.run_on_node, set_placement]
    · have hne : m ≠ n := fun e => hn (e ▸ h)
      have h1 := ih (AssignPlacement.run_on_node policy n g).2 hns h
      simp only [AssignPlacement.run_on_nodes]
      rw [h1]
      simp [AssignPlacement.run_on_node, set_placement, hne]

/-- C10: `run_on_node` sets the placement of the node to the value of the policy on it,
leaves its other attributes, every other node and every function as they were, and
returns `false`; visiting each node of a duplicate-free list once gives every visited
node the placement the policy assigns to it, leaves the rest of the graph alone, reports
no change, and gives the same graph for every order of the visit. -/
theorem assign_placement_run_on_node (policy : NodeId → Node → Placement) (g : Graph)
    (node : NodeId) (order1 order2 : List NodeId)
    (hnd : order1.Nodup) (hperm : order1.Perm order2) :
    ((AssignPlacement.run_on_node policy node g).1 = false ∧
      (AssignPlacement.run_on_node policy node g).2.nodes node =
        { g.nodes node with placement := policy node (g.nodes node) } ∧
      (∀ m, m ≠ node → (AssignPlacement.run_on_node policy node g).2.nodes m = g.nodes m) ∧
      (AssignPlacement.run_on_node policy node g).2.funcs = g.funcs) ∧
    ((AssignPlacement.run_on_nodes policy order1 g).1 = false ∧
      (∀ n ∈ order1, ((AssignPlacement.run_on_nodes policy order1 g).2.nodes n).placement =
        policy n (g.nodes n)) ∧
      (∀ n ∈ order1, (AssignPlacement.run_on_nodes policy order1 g).2.nodes n =
        { g.nodes n with placement := policy n (g.nodes n) }) ∧
      (∀ n, n ∉ order1 → (AssignPlacement.run_on_nodes policy order1 g).2.nodes n = g.nodes n) ∧
      (AssignPlacement.run_on_nodes policy order1 g).2.funcs = g.funcs) ∧
    (∀ n, (AssignPlacement.run_on_nodes policy order2 g).2.nodes n =
        (AssignPlacement.run_on_nodes policy order1 g).2.nodes n) ∧
    (AssignPlacement.run_on_nodes policy order2 g).2.funcs =
      (AssignPlacement.run_on_nodes policy order1 g).2.funcs := by
  have hnd2 : order2.Nodup := hperm.nodup_iff.mp hnd
  refine ⟨⟨rfl, ?_, ?_, rfl⟩, ⟨run_on_nodes_flag _ _ _, ?_, ?_, ?_, run_on_nodes_funcs _ _ _⟩, ?_, ?_⟩
  · simp [AssignPlacement.run_on_node, set_placement]
  · intro m hm
    simp [AssignPlacement.run_on_node, set_placement, hm]
  · intro n hn
    rw [run_on_nodes_visited policy order1 g hnd n hn]
  · intro n hn
    exact run_on_nodes_visited policy order1 g hnd n hn
  · intro n hn
    exact run_on_nodes_untouched policy order1 g n hn
  · intro n
    by_cases hn : n ∈ order1
    · rw [run_on_nodes_visited policy order1 g hnd n hn,
        run_on_nodes_visited policy order2 g hnd2 n (hperm.mem_iff.mp hn)]
    · rw [run_on_nodes_untouched policy order1 g n hn,
        run_on_nodes_untouched policy order2 g n (fun h => hn (hperm.mem_iff.mpr h))]
  · rw [run_on_nodes_funcs, run_on_nodes_funcs]

/-- C10, on the example graph with a policy that reads the identity and the placement
index of the node: the orders `1, 2, 3` and `3, 1, 2` give the same placements. -/
theorem assign_placement_run_on_node_witness :
    [1, 2, 3].Nodup ∧ [1, 2, 3].Perm [3, 1, 2] ∧
    (AssignPlacement.run_on_node (fun n node => n % 2 + node.placement_index) 3 sample_graph).1
      = false ∧
    (∀ n ∈ [1, 2, 3],
      ((AssignPlacement.run_on_nodes (fun n node => n % 2 + node.placement_index) [1, 2, 3]
        sample_graph).2.nodes n).placement = n % 2 + (sample_graph.nodes n).placement_index) ∧
    (∀ n, (AssignPlacement.run_on_nodes (fun n node => n % 2 + node.placement_index) [3, 1, 2]
        sample_graph).2.nodes n =
      (AssignPlacement.run_on_nodes (fun n node => n % 2 + node.placement_index) [1, 2, 3]
        sample_graph).2.nodes n) :=
  have h := assign_placement_run_on_node (fun n node => n % 2 + node.placement_index)
    sample_graph 3 [1, 2, 3] [3, 1, 2] (by decide) (by decide)
  ⟨by decide, by decide, h.1.1, h.2.1.2.1, h.2.2.1⟩

/-! ## The cache of compiled programs -/

theorem compile_sub_functions_map {σ : Type} (E : Env σ) (subs : List FuncId) (w : World σ) :
    (compile_sub_functions E subs w).2.m_function_map = w.m_function_map := by
  induction subs generalizing w with
  | nil => rfl
  | cons sf rest ih =>
    simp only [compile_sub_functions]
    split
    · rfl
    · split
      · split
        · rfl
        · rw [ih]
      · rfl

theorem compile_cached {σ : Type} (E : Env σ) (func : FuncId) (w : World σ)
    (inst : FunctionInstance) (h : w.m_function_map func = some inst) :
    compile E func w = (.ok func, w) := by
  simp [compile, h]

theorem compile_map_other {σ : Type} (E : Env σ) (func other : FuncId) (w : World σ)
    (h : other ≠ func) :
    (compile E func w).2.m_function_map other = w.m_function_map other := by
  simp only [compile]
  split
  · rfl
  · split
    · rfl
    · simp [compile_sub_functions_map, h]

theorem compile_map_kept {σ : Type} (E : Env σ) (func other : FuncId) (w : World σ)
    (inst : FunctionInstance) (h : w.m_function_map other = some inst) :
    (compile E func w).2.m_function_map other = some inst := by
  by_cases hne : other = func
  · subst hne
    rw [compile_cached E other w inst h]
    exact h
  · rw [compile_map_other E func other w hne]
    exact h

theorem call_map {σ : Type} (E : Env σ) (func : FuncId) (outputs inputs : List Tensor)
    (w : World σ) : (call E func outputs inputs w).2.m_function_map = w.m_function_map := by
  simp only [call]
  split
  · rfl
  · split <;> rfl

theorem serve_all_map_none {σ : Type} (E : Env σ) (func : FuncId) (requests : List Request)
    (w : World σ) (h : w.m_function_map func = none)
    (hreq : ∀ r ∈ requests, r ≠ Request.compile func) :
    (serve_all E w requests).m_function_map func = none := by
  induction requests generalizing w with
  | nil => exact h
  | cons r rest ih =>
    have hr : r ≠ Request.compile func := hreq r (by simp)
    have hrest : ∀ r ∈ rest, r ≠ Request.compile func := fun r hm => hreq r (by simp [hm])
    simp only [serve_all, List.foldl_cons]
    apply ih _ _ hrest
    cases r with
    | compile f =>
      have hne : func ≠ f := fun e => hr (by rw [e])
      simp only [serve]
      rw [compile_map_other E f func w hne]
      exact h
    | call f outputs inputs =>
      simp only [serve]
      rw [call_map]
      exact h

theorem serve_all_map_kept {σ : Type} (E : Env σ) (func : FuncId) (requests : List Request)
    (w : World σ) (inst : FunctionInstance) (h : w.m_function_map func = some inst) :
    (serve_all E w requests).m_function_map func = some inst := by
  induction requests generalizing w with
  | nil => exact h
  | cons r rest ih =>
    simp only [serve_all, List.foldl_cons]
    apply ih
    cases r with
    | compile f => exact compile_map_kept E f func w inst h
    | call f outputs inputs =>
      simp only [serve]
      rw [call_map]
      exact h

theorem compile_registers {σ : Type} (E : Env σ) (func : FuncId) (w w1 : World σ)
    (handle : FuncId) (h : compile E func w = (.ok handle, w1)) :
    handle = func ∧ ∃ inst, w1.m_function_map func = some inst := by
  simp only [compile] at h
  split at h
  · next inst hc =>
    simp only [Prod.mk.injEq, Except.ok.injEq] at h
    exact ⟨h.1.symm, inst, h.2 ▸ hc⟩
  · split at h
    · simp at h
    · next inst g hb =>
      simp only [Prod.mk.injEq] at h
      obtain ⟨h1, h2⟩ := h
      refine ⟨?_, inst, ?_⟩
      · revert h1
        cases (compile_sub_functions E inst.m_sub_functions
          { w with graph := g, m_function_map := assign w.m_function_map func (some inst) }).1 with
        | error e => simp [Except.map]
        | ok u => simp [Except.map]; exact fun e => e.symm
      · rw [← h2, compile_sub_functions_map]
        simp

/-- C4: on an engine in which `func` is not cached, and after any sequence of requests
none of which is `compile(func)`, `call(func, outputs, inputs)` raises the
compile-before-call error and leaves the whole state as it was: no backend operation is
logged and the cache is unchanged. -/
theorem call_before_compile {σ : Type} (E : Env σ) (w0 : World σ) (requests : List Request)
    (func : FuncId) (outputs inputs : List Tensor)
    (h0 : w0.m_function_map func = none)
    (hreq : ∀ r ∈ requests, r ≠ Request.compile func) :
    call E func outputs inputs (serve_all E w0 requests) =
      (.error .compile_before_call, serve_all E w0 requests) := by
  have h := serve_all_map_none E func requests w0 h0 hreq
  simp [call, h]

/-- C4, on the example: program 7 was never compiled, program 8 was compiled and called. -/
theorem call_before_compile_witness :
    sample_world.m_function_map 7 = none ∧
    (∀ r ∈ [Request.compile 8, Request.call 8 [2] [0, 1]], r ≠ Request.compile 7) ∧
    call sample_env 7 [2] [0, 1]
        (serve_all sample_env sample_world [Request.compile 8, Request.call 8 [2] [0, 1]]) =
      (.error .compile_before_call,
        serve_all sample_env sample_world [Request.compile 8, Request.call 8 [2] [0, 1]]) :=
  ⟨rfl, by decide,
    call_before_compile sample_env sample_world [Request.compile 8, Request.call 8 [2] [0, 1]]
      7 [2] [0, 1] rfl (by decide)⟩

/-- C3: when `compile(func)` returns, the handle is `func`; compiling `func` again, at
once or after any further requests, returns `func` and changes nothing: no backend
`compile` is invoked, the graph is not cloned or split again, and the cached instance
of `func` stays the one the first compile stored. -/
theorem compile_idempotent {σ : Type} (E : Env σ) (func handle : FuncId) (w w1 : World σ)
    (requests : List Request) (h : compile E func w = (.ok handle, w1)) :
    handle = func ∧
    compile E func w1 = (.ok func, w1) ∧
    compile_calls (compile E func w1).2.log = compile_calls w1.log ∧
    (∃ inst, w1.m_function_map func = some inst ∧
      (compile E func w1).2.m_function_map func = some inst ∧
      (serve_all E w1 requests).m_function_map func = some inst) ∧
    compile E func (serve_all E w1 requests) = (.ok func, serve_all E w1 requests) := by
  obtain ⟨h1, inst, h2⟩ := compile_registers E func w w1 handle h
  have h3 := compile_cached E func w1 inst h2
  have h4 := serve_all_map_kept E func requests w1 inst h2
  refine ⟨h1, h3, by rw [h3], ⟨inst, h2, by rw [h3]; exact h2, h4⟩, ?_⟩
  exact compile_cached E func _ inst h4

/-- C3, on the example: the first compile of program 7 invokes two backend compiles, the
second none. -/
theorem compile_idempotent_witness :
    (compile sample_env 7 sample_world).1 = .ok 7 ∧
    compile_calls (compile sample_env 7 sample_world).2.log = [(1, 101), (0, 102)] ∧
    compile sample_env 7 (compile sample_env 7 sample_world).2 =
      (.ok 7, (compile sample_env 7 sample_world).2) ∧
    compile_calls (compile sample_env 7 (compile sample_env 7 sample_world).2).2.log =
      [(1, 101), (0, 102)] :=
  have h := compile_idempotent sample_env 7 7 sample_world (compile sample_env 7 sample_world).2
    [] rfl
  ⟨rfl, by decide, h.2.1, h.2.2.1.trans (by decide)⟩

/-! ## The loop of `compile` -/

theorem compile_calls_append (l1 l2 : List Event) :
    compile_calls (l1 ++ l2) = compile_calls l1 ++ compile_calls l2 := by
  induction l1 with
  | nil => rfl
  | cons e rest ih => cases e <;> simp [compile_calls, ih]

theorem validate_calls_append (l1 l2 : List Event) :
    validate_calls (l1 ++ l2) = validate_calls l1 ++ validate_calls l2 := by
  induction l1 with
  | nil => rfl
  | cons e rest ih => cases e <;> simp [validate_calls, ih]

theorem compile_sub_functions_append {σ : Type} (E : Env σ) (pre rest : List FuncId)
    (w w1 : World σ) (h : compile_sub_functions E pre w = (.ok (), w1)) :
    compile_sub_functions E (pre ++ rest) w = compile_sub_functions E rest w1 := by
  induction pre generalizing w with
  | nil =>
    simp only [compile_sub_functions, Prod.mk.injEq, true_and] at h
    simp [h]
  | cons sf tl ih =>
    simp only [List.cons_append, compile_sub_functions] at h ⊢
    cases hp : get_colocated_function_placement_size w.graph sf with
    | error e => simp [hp] at h
    | ok placement =>
      simp only [hp] at h ⊢
      by_cases hlt : placement < E.backend_count
      · simp only [hlt, if_true] at h ⊢
        rcases hc : E.backend_compile placement sf (w.graph, w.ext) with ⟨r, st⟩
        cases r with
        | error c => simp [hc] at h
        | ok u =>
          simp only [hc] at h ⊢
          exact ih _ h
      · simp [hlt] at h

theorem compile_sub_functions_targets {σ : Type} (E : Env σ) (subs : List FuncId)
    (w w1 : World σ) (h : compile_sub_functions E subs w = (.ok (), w1)) :
    (compile_calls w1.log).map Prod.snd = (compile_calls w.log).map Prod.snd ++ subs := by
  induction subs generalizing w with
  | nil =>
    simp only [compile_sub_functions, Prod.mk.injEq, true_and] at h
    simp [← h]
  | cons sf tl ih =>
    simp only [compile_sub_functions] at h
    split at h
    · simp at h
    · split at h
      · split at h
        · simp at h
        · rw [ih _ h]
          simp [compile_calls_append, compile_calls]
      · simp at h

/-! ## Errors raised inside `call` -/

theorem seed_tensors_error (nodes : List NodeId) (tensors : List Tensor)
    (m : NodeId → Option Tensor) (e : Err) (h : seed_tensors nodes tensors m = .error e) :
    e = .out_of_range := by
  induction nodes generalizing tensors m with
  | nil =>
    cases tensors with
    | nil => simp [seed_tensors] at h
    | cons t ts => simp only [seed_tensors, Except.error.injEq] at h; exact h.symm
  | cons n ns ih =>
    cases tensors with
    | nil => simp [seed_tensors] at h
    | cons t ts => exact ih _ _ h

theorem seed_map_error (g : Graph) (inst : FunctionInstance) (outputs inputs : List Tensor)
    (e : Err) (h : seed_map g inst outputs inputs = .error e) : e = .out_of_range := by
  simp only [seed_map] at h
  split at h
  · next e1 h1 =>
    simp only [Except.error.injEq] at h
    exact h ▸ seed_tensors_error _ _ _ _ h1
  · exact seed_tensors_error _ _ _ _ h

theorem get_colocated_error (g : Graph) (f : FuncId) (e : Err)
    (h : get_colocated_function_placement_size g f = .error e) : e = .placement := by
  simp only [get_colocated_function_placement_size] at h
  split at h
  · simp only [Except.error.injEq] at h; exact h.symm
  · split at h
    · simp at h
    · simp only [Except.error.injEq] at h; exact h.symm

/-! ## The preparation loops -/

theorem prepare_results_spec {σ : Type} (E : Env σ) (g : Graph) (b : Nat) (rs : List NodeId)
    (s s1 : CallState σ) (r : Except Err (List Tensor))
    (h : prepare_results E g b rs s = (r, s1)) :
    (∀ n t, s.map_node_to_tensor n = some t → s1.map_node_to_tensor n = some t) ∧
    (∀ n, n ∉ rs → s1.map_node_to_tensor n = s.map_node_to_tensor n) ∧
    (∃ evs, s1.log = s.log ++ evs ∧ validate_calls evs = [] ∧
      (∀ results, r = .ok results → ∀ q ∈ rs, s.map_node_to_tensor q = none →
        ∃ t, s1.map_node_to_tensor q = some t ∧
          Event.create_tensor b (g.nodes q).element_type (g.nodes q).shape (some t) ∈ evs)) ∧
    (∀ results, r = .ok results → results.map some = rs.map s1.map_node_to_tensor) ∧
    (∀ e, r = .error e → (∃ c, e = .backend c) ∧ ¬ NoRaise E) := by
  induction rs generalizing s s1 r with
  | nil =>
    simp only [prepare_results, Prod.mk.injEq] at h
    obtain ⟨h1, h2⟩ := h
    subst h1 h2
    refine ⟨fun _ _ hn => hn, fun _ _ => rfl, ⟨[], by simp, rfl, ?_⟩, ?_, ?_⟩
    · intro _ _ q hq
      simp at hq
    · intro results hr
      simp only [Except.ok.injEq] at hr
      simp [← hr]
    · intro e he
      simp at he
  | cons q rest ih =>
    simp only [prepare_results] at h
    cases hm : s.map_node_to_tensor q with
    | some t =>
      simp only [hm, Prod.mk.injEq] at h
      obtain ⟨h1, h2⟩ := h
      rcases hrec : prepare_results E g b rest s with ⟨r0, s0⟩
      rw [hrec] at h1 h2
      simp only at h1 h2
      subst h2
      obtain ⟨i1, i2, ⟨evs, i3, i4, i5⟩, i6, i7⟩ := ih s s0 r0 hrec
      refine ⟨i1, ?_, ⟨evs, i3, i4, ?_⟩, ?_, ?_⟩
      · intro n hn
        exact i2 n (fun hmem => hn (List.mem_cons_of_mem _ hmem))
      · intro results hr q1 hq1 hq1n
        cases r0 with
        | error e => simp [Except.map, ← h1] at hr
        | ok results0 =>
          rcases List.mem_cons.mp hq1 with heq | hmem
          · rw [heq, hm] at hq1n
            simp at hq1n
          · exact i5 results0 rfl q1 hmem hq1n
      · intro results hr
        cases r0 with
        | error e => simp [Except.map, ← h1] at hr
        | ok results0 =>
          simp only [Except.map, ← h1, Except.ok.injEq] at hr
          rw [← hr]
          simp only [List.map_cons]
          rw [i6 results0 rfl, i1 q t hm]
      · intro e he
        cases r0 with
        | error e0 =>
          simp only [Except.map, ← h1, Except.error.injEq] at he
          exact i7 e (by rw [he])
        | ok results0 => simp [Except.map, ← h1] at he
    | none =>
      simp only [hm] at h
      rcases hc : E.create_tensor b (g.nodes q).element_type (g.nodes q).shape s.ext with ⟨rt, x⟩
      cases rt with
      | error c =>
        simp only [hc, Prod.mk.injEq] at h
        obtain ⟨h1, h2⟩ := h
        subst h1 h2
        refine ⟨fun _ _ hn => hn, fun _ _ => rfl, ⟨_, rfl, rfl, ?_⟩, ?_, ?_⟩
        · intro results hr
          simp at hr
        · intro results hr
          simp at hr
        · intro e he
          simp only [Except.error.injEq] at he
          refine ⟨⟨c, he.symm⟩, ?_⟩
          intro hno
          obtain ⟨t, ht⟩ := hno.1 b (g.nodes q).element_type (g.nodes q).shape s.ext
          rw [hc] at ht
          simp at ht
      | ok tv =>
        simp only [hc, Prod.mk.injEq] at h
        obtain ⟨h1, h2⟩ := h
        rcases hrec : prepare_results E g b rest
          { map_node_to_tensor := assign s.map_node_to_tensor q (some tv), ext := x,
            log := s.log ++ [Event.create_tensor b (g.nodes q).element_type (g.nodes q).shape
              (some tv)] } with ⟨r0, s0⟩
        rw [hrec] at h1 h2
        simp only at h1 h2
        subst h2
        obtain ⟨i1, i2, ⟨evs, i3, i4, i5⟩, i6, i7⟩ := ih _ s0 r0 hrec
        simp only at i1 i2 i3
        have hq : s0.map_node_to_tensor q = some tv := i1 q tv (by simp)
        refine ⟨?_, ?_, ⟨Event.create_tensor b (g.nodes q).element_type (g.nodes q).shape
          (some tv) :: evs, ?_, ?_, ?_⟩, ?_, ?_⟩
        · intro n t hn
          apply i1
          have hne : n ≠ q := fun e => by rw [e, hm] at hn; simp at hn
          simp [hne, hn]
        · intro n hn
          have hne : n ≠ q := fun e => hn (by simp [e])
          rw [i2 n (fun hmem => hn (List.mem_cons_of_mem _ hmem))]
          simp [hne]
        · rw [i3]
          simp
        · simp [validate_calls, i4]
        · intro results hr q1 hq1 hq1n
          by_cases heq : q1 = q
          · subst heq
            exact ⟨tv, hq, by simp⟩
          · cases r0 with
            | error e => simp [Except.map, ← h1] at hr
            | ok results0 =>
              have hmem : q1 ∈ rest := by
                rcases List.mem_cons.mp hq1 with h0 | h0
                · exact absurd h0 heq
                · exact h0
              obtain ⟨t, ht1, ht2⟩ := i5 results0 rfl q1 hmem (by simp [heq, hq1n])
              exact ⟨t, ht1, List.mem_cons_of_mem _ ht2⟩
        · intro results hr
          cases r0 with
          | error e => simp [Except.map, ← h1] at hr
          | ok results0 =>
            simp only [Except.map, ← h1, Except.ok.injEq] at hr
            rw [← hr]
            simp only [List.map_cons]
            rw [i6 results0 rfl, hq]
        · intro e he
          cases r0 with
          | error e0 =>
            simp only [Except.map, ← h1, Except.error.injEq] at he
            exact i7 e (by rw [he])
          | ok results0 => simp [Except.map, ← h1] at he

theorem prepare_parameters_spec {σ : Type} (E : Env σ) (inst : FunctionInstance) (g : Graph)
    (b : Nat) (ps : List NodeId) (s s1 : CallState σ) (r : Except Err (List Tensor))
    (h : prepare_parameters E inst g b ps s = (r, s1)) :
    (∀ n t, s.map_node_to_tensor n = some t → s1.map_node_to_tensor n = some t) ∧
    (∀ n, n ∉ ps → s1.map_node_to_tensor n = s.map_node_to_tensor n) ∧
    (∃ evs, s1.log = s.log ++ evs ∧ validate_calls evs = [] ∧
      (∀ parameters, r = .ok parameters → ∀ p ∈ ps, s.map_node_to_tensor p = none →
        ∃ t r0 rt l1 l2, s1.map_node_to_tensor p = some t ∧
          inst.m_map_parameter_to_result p = some r0 ∧ s1.map_node_to_tensor r0 = some rt ∧
          evs = l1 ++ [Event.create_tensor b (g.nodes p).element_type (g.nodes p).shape (some t),
            Event.copy_from t rt] ++ l2)) ∧
    (∀ parameters, r = .ok parameters → parameters.map some = ps.map s1.map_node_to_tensor) ∧
    (∀ e, r = .error e → ((∃ c, e = .backend c) ∧ ¬ NoRaise E) ∨
      (e = .key_not_found ∧ ∃ p ∈ ps, s.map_node_to_tensor p = none ∧
        ∀ r0, inst.m_map_parameter_to_result p = some r0 → s.map_node_to_tensor r0 = none)) := by
  induction ps generalizing s s1 r with
  | nil =>
    simp only [prepare_parameters, Prod.mk.injEq] at h
    obtain ⟨h1, h2⟩ := h
    subst h1 h2
    refine ⟨fun _ _ hn => hn, fun _ _ => rfl, ⟨[], by simp, rfl, ?_⟩, ?_, ?_⟩
    · intro _ _ q hq
      simp at hq
    · intro results hr
      simp only [Except.ok.injEq] at hr
      simp [← hr]
    · intro e he
      simp at he
  | cons p rest ih =>
    simp only [prepare_parameters] at h
    cases hm : s.map_node_to_tensor p with
    | some t =>
      simp only [hm, Prod.mk.injEq] at h
      obtain ⟨h1, h2⟩ := h
      rcases hrec : prepare_parameters E inst g b rest s with ⟨r0, s0⟩
      rw [hrec] at h1 h2
      simp only at h1 h2
      subst h2
      obtain ⟨i1, i2, ⟨evs, i3, i4, i5⟩, i6, i7⟩ := ih s s0 r0 hrec
      refine ⟨i1, ?_, ⟨evs, i3, i4, ?_⟩, ?_, ?_⟩
      · intro n hn
        exact i2 n (fun hmem => hn (List.mem_cons_of_mem _ hmem))
      · intro parameters hr p1 hp1 hp1n
        cases r0 with
        | error e => simp [Except.map, ← h1] at hr
        | ok parameters0 =>
          rcases List.mem_cons.mp hp1 with heq | hmem
          · rw [heq, hm] at hp1n
            simp at hp1n
          · exact i5 parameters0 rfl p1 hmem hp1n
      · intro parameters hr
        cases r0 with
        | error e => simp [Except.map, ← h1] at hr
        | ok parameters0 =>
          simp only [Except.map, ← h1, Except.ok.injEq] at hr
          rw [← hr]
          simp only [List.map_cons]
          rw [i6 parameters0 rfl, i1 p t hm]
      · intro e he
        cases r0 with
        | error e0 =>
          simp only [Except.map, ← h1, Except.error.injEq] at he
          rcases i7 e (by rw [he]) with hb | ⟨hk, p1, hp1, hp2, hp3⟩
          · exact Or.inl hb
          · exact Or.inr ⟨hk, p1, List.mem_cons_of_mem _ hp1, hp2, hp3⟩
        | ok parameters0 => simp [Except.map, ← h1] at he
    | none =>
      simp only [hm] at h
      cases hbm : inst.m_map_parameter_to_result p with
      | none =>
        simp only [hbm, Prod.mk.injEq] at h
        obtain ⟨h1, h2⟩ := h
        subst h1 h2
        refine ⟨fun _ _ hn => hn, fun _ _ => rfl, ⟨[], by simp, rfl, ?_⟩, ?_, ?_⟩
        · intro parameters hr
          simp at hr
        · intro parameters hr
          simp at hr
        · intro e he
          simp only [Except.error.injEq] at he
          refine Or.inr ⟨he.symm, p, by simp, hm, ?_⟩
          intro r0 hr0
          rw [hbm] at hr0
          simp at hr0
      | some result_node =>
        simp only [hbm] at h
        cases hrm : s.map_node_to_tensor result_node with
        | none =>
          simp only [hrm, Prod.mk.injEq] at h
          obtain ⟨h1, h2⟩ := h
          subst h1 h2
          refine ⟨fun _ _ hn => hn, fun _ _ => rfl, ⟨[], by simp, rfl, ?_⟩, ?_, ?_⟩
          · intro parameters hr
            simp at hr
          · intro parameters hr
            simp at hr
          · intro e he
            simp only [Except.error.injEq] at he
            refine Or.inr ⟨he.symm, p, by simp, hm, ?_⟩
            intro r0 hr0
            rw [hbm] at hr0
            simp only [Option.some.injEq] at hr0
            rw [← hr0]
            exact hrm
        | some result_tv =>
          simp only [hrm] at h
          rcases hc : E.create_tensor b (g.nodes p).element_type (g.nodes p).shape s.ext
            with ⟨rt, x⟩
          cases rt with
          | error c =>
            simp only [hc, Prod.mk.injEq] at h
            obtain ⟨h1, h2⟩ := h
            subst h1 h2
            refine ⟨fun _ _ hn => hn, fun _ _ => rfl, ⟨_, rfl, rfl, ?_⟩, ?_, ?_⟩
            · intro parameters hr
              simp at hr
            · intro parameters hr
              simp at hr
            · intro e he
              simp only [Except.error.injEq] at he
              refine Or.inl ⟨⟨c, he.symm⟩, ?_⟩
              intro hno
              obtain ⟨t, ht⟩ := hno.1 b (g.nodes p).element_type (g.nodes p).shape s.ext
              rw [hc] at ht
              simp at ht
          | ok tv =>
            simp only [hc] at h
            rcases hcp : E.copy_from tv result_tv x with ⟨rc, x1⟩
            cases rc with
            | error c =>
              simp only [hcp, Prod.mk.injEq] at h
              obtain ⟨h1, h2⟩ := h
              subst h1 h2
              refine ⟨fun _ _ hn => hn, fun _ _ => rfl, ⟨_, rfl, rfl, ?_⟩, ?_, ?_⟩
              · intro parameters hr
                simp at hr
              · intro parameters hr
                simp at hr
              · intro e he
                simp only [Except.error.injEq] at he
                refine Or.inl ⟨⟨c, he.symm⟩, ?_⟩
                intro hno
                have ht := hno.2.1 tv result_tv x
                rw [hcp] at ht
                simp at ht
            | ok u =>
              simp only [hcp, Prod.mk.injEq] at h
              obtain ⟨h1, h2⟩ := h
              rcases hrec : prepare_parameters E inst g b rest
                { map_node_to_tensor := assign s.map_node_to_tensor p (some tv), ext := x1,
                  log := s.log ++
                    [Event.create_tensor b (g.nodes p).element_type (g.nodes p).shape (some tv),
                     Event.copy_from tv result_tv] } with ⟨r0, s0⟩
              rw [hrec] at h1 h2
              simp only at h1 h2
              subst h2
              obtain ⟨i1, i2, ⟨evs, i3, i4, i5⟩, i6, i7⟩ := ih _ s0 r0 hrec
              simp only at i1 i2 i3 i5 i7
              have hp : s0.map_node_to_tensor p = some tv := i1 p tv (by simp)
              have hne : result_node ≠ p := fun e => by rw [e, hm] at hrm; simp at hrm
              have hrn : s0.map_node_to_tensor result_node = some result_tv :=
                i1 result_node result_tv (by simp [hne, hrm])
              have hback : ∀ n, assign s.map_node_to_tensor p (some tv) n = none →
                  s.map_node_to_tensor n = none := by
                intro n hn
                by_cases e : n = p
                · rw [e]; exact hm
                · simpa [e] using hn
              refine ⟨?_, ?_, ⟨[Event.create_tensor b (g.nodes p).element_type (g.nodes p).shape
                  (some tv), Event.copy_from tv result_tv] ++ evs, ?_, ?_, ?_⟩, ?_, ?_⟩
              · intro n t hn
                apply i1
                have hnp : n ≠ p := fun e => by rw [e, hm] at hn; simp at hn
                simp [hnp, hn]
              · intro n hn
                have hnp : n ≠ p := fun e => hn (by simp [e])
                rw [i2 n (fun hmem => hn (List.mem_cons_of_mem _ hmem))]
                simp [hnp]
              · rw [i3]
                simp
              · simp [validate_calls, i4]
              · intro parameters hr p1 hp1 hp1n
                by_cases heq : p1 = p
                · subst heq
                  exact ⟨tv, result_node, result_tv, [], evs, hp, hbm, hrn, by simp⟩
                · cases r0 with
                  | error e => simp [Except.map, ← h1] at hr
                  | ok parameters0 =>
                    have hmem : p1 ∈ rest := by
                      rcases List.mem_cons.mp hp1 with h0 | h0
                      · exact absurd h0 heq
                      · exact h0
                    obtain ⟨t, q0, qt, l1, l2, j1, j2, j3, j4⟩ :=
                      i5 parameters0 rfl p1 hmem (by simp [heq, hp1n])
                    refine ⟨t, q0, qt, [Event.create_tensor b (g.nodes p).element_type
                      (g.nodes p).shape (some tv), Event.copy_from tv result_tv] ++ l1, l2,
                      j1, j2, j3, ?_⟩
                    rw [j4]
                    simp
              · intro parameters hr
                cases r0 with
                | error e => simp [Except.map, ← h1] at hr
                | ok parameters0 =>
                  simp only [Except.map, ← h1, Except.ok.injEq] at hr
                  rw [← hr]
                  simp only [List.map_cons]
                  rw [i6 parameters0 rfl, hp]
              · intro e he
                cases r0 with
                | error e0 =>
                  simp only [Except.map, ← h1, Except.error.injEq] at he
                  rcases i7 e (by rw [he]) with hb | ⟨hk, p1, hp1, hp2, hp3⟩
                  · exact Or.inl hb
                  · refine Or.inr ⟨hk, p1, List.mem_cons_of_mem _ hp1, hback p1 hp2, ?_⟩
                    intro q0 hq0
                    exact hback q0 (hp3 q0 hq0)
                | ok parameters0 => simp [Except.map, ← h1] at he

theorem map_some_mono (ts : List Tensor) (ns : List NodeId) (m m1 : NodeId → Option Tensor)
    (h : ts.map some = ns.map m) (hmono : ∀ n t, m n = some t → m1 n = some t) :
    ts.map some = ns.map m1 := by
  induction ns generalizing ts with
  | nil => simpa using h
  | cons n rest ih =>
    cases ts with
    | nil => simp at h
    | cons t tl =>
      simp only [List.map_cons, List.cons.injEq] at h ⊢
      exact ⟨(hmono n t h.1.symm).symm, ih tl h.2⟩

theorem map_some_mem (ts : List Tensor) (ns : List NodeId) (m : NodeId → Option Tensor)
    (h : ts.map some = ns.map m) (n : NodeId) (hn : n ∈ ns) : m n ≠ none := by
  have h1 : m n ∈ ns.map m := List.mem_map_of_mem m hn
  rw [← h] at h1
  obtain ⟨t, _, ht⟩ := List.mem_map.mp h1
  rw [← ht]
  simp

theorem prepare_tensors_spec {σ : Type} (E : Env σ) (inst : FunctionInstance) (g : Graph)
    (b : Nat) (sf : FuncId) (s s1 : CallState σ) (r : Except Err (List Tensor × List Tensor))
    (h : prepare_tensors E inst g b sf s = (r, s1)) :
    (∀ n t, s.map_node_to_tensor n = some t → s1.map_node_to_tensor n = some t) ∧
    (∃ evs, s1.log = s.log ++ evs ∧ validate_calls evs = [] ∧
      (∀ results parameters, r = .ok (results, parameters) →
        parameters.map some = (g.funcs sf).parameters.map s1.map_node_to_tensor ∧
        results.map some = (g.funcs sf).results.map s1.map_node_to_tensor ∧
        (∀ p ∈ (g.funcs sf).parameters, s.map_node_to_tensor p = none →
          ∃ t r0 rt l1 l2, s1.map_node_to_tensor p = some t ∧
            inst.m_map_parameter_to_result p = some r0 ∧ s1.map_node_to_tensor r0 = some rt ∧
            evs = l1 ++ [Event.create_tensor b (g.nodes p).element_type (g.nodes p).shape
              (some t), Event.copy_from t rt] ++ l2) ∧
        (∀ q ∈ (g.funcs sf).results, s.map_node_to_tensor q = none →
          q ∉ (g.funcs sf).parameters →
          ∃ t, s1.map_node_to_tensor q = some t ∧
            Event.create_tensor b (g.nodes q).element_type (g.nodes q).shape (some t) ∈ evs))) ∧
    (∀ e, r = .error e → ((∃ c, e = .backend c) ∧ ¬ NoRaise E) ∨
      (e = .key_not_found ∧ ∃ p ∈ (g.funcs sf).parameters, s.map_node_to_tensor p = none ∧
        ∀ r0, inst.m_map_parameter_to_result p = some r0 → s.map_node_to_tensor r0 = none)) := by
  simp only [prepare_tensors] at h
  rcases hp : prepare_parameters E inst g b (g.funcs sf).parameters s with ⟨rp, sp⟩
  obtain ⟨p1, p2, ⟨evp, p3, p4, p5⟩, p6, p7⟩ := prepare_parameters_spec E inst g b _ s sp rp hp
  cases rp with
  | error e =>
    simp only [hp, Prod.mk.injEq] at h
    obtain ⟨h1, h2⟩ := h
    subst h1 h2
    refine ⟨p1, ⟨evp, p3, p4, ?_⟩, ?_⟩
    · intro results parameters hr
      simp at hr
    · intro e1 he
      simp only [Except.error.injEq] at he
      exact p7 e1 (by rw [he])
  | ok parameters0 =>
    simp only [hp, Prod.mk.injEq] at h
    obtain ⟨h1, h2⟩ := h
    rcases hr : prepare_results E g b (g.funcs sf).results sp with ⟨rr, sr⟩
    rw [hr] at h1 h2
    simp only at h1 h2
    subst h2
    obtain ⟨q1, q2, ⟨evr, q3, q4, q5⟩, q6, q7⟩ := prepare_results_spec E g b _ sp sr rr hr
    refine ⟨fun n t hn => q1 n t (p1 n t hn), ⟨evp ++ evr, ?_, ?_, ?_⟩, ?_⟩
    · rw [q3, p3, List.append_assoc]
    · rw [validate_calls_append, p4, q4]
      rfl
    · intro results parameters hres
      cases rr with
      | error e => simp [Except.map, ← h1] at hres
      | ok results0 =>
        simp only [Except.map, ← h1, Except.ok.injEq, Prod.mk.injEq] at hres
        obtain ⟨e1, e2⟩ := hres
        subst e1 e2
        refine ⟨map_some_mono _ _ _ _ (p6 parameters0 rfl) q1, q6 results0 rfl, ?_, ?_⟩
        · intro p hpm hpn
          obtain ⟨t, r0, rt, l1, l2, j1, j2, j3, j4⟩ := p5 parameters0 rfl p hpm hpn
          exact ⟨t, r0, rt, l1, l2 ++ evr, q1 p t j1, j2, q1 r0 rt j3, by rw [j4]; simp⟩
        · intro q hqm hqn hqp
          have hsp : sp.map_node_to_tensor q = none := by rw [p2 q hqp]; exact hqn
          obtain ⟨t, t1, t2⟩ := q5 results0 rfl q hqm hsp
          exact ⟨t, t1, List.mem_append_right _ t2⟩
    · intro e he
      cases rr with
      | error e0 =>
        simp only [Except.map, ← h1, Except.error.injEq] at he
        exact Or.inl (q7 e (by rw [he]))
      | ok results0 => simp [Except.map, ← h1] at he

theorem invoke_spec {σ : Type} (E : Env σ) (g : Graph) (b : Nat) (sf : FuncId)
    (results parameters : List Tensor) (s : CallState σ) :
    (invoke E g b sf results parameters s).2.map_node_to_tensor = s.map_node_to_tensor ∧
    (invoke E g b sf results parameters s).2.log =
      s.log ++ [Event.call_with_validate b sf results parameters] ∧
    (∀ e, (invoke E g b sf results parameters s).1 = .error e →
      (∃ c, e = .backend c) ∧ ¬ NoRaise E) := by
  simp only [invoke]
  rcases hc : E.call_with_validate b sf results parameters g s.ext with ⟨rc, x⟩
  cases rc with
  | error c =>
    refine ⟨rfl, rfl, ?_⟩
    intro e he
    simp only [Except.error.injEq] at he
    refine ⟨⟨c, he.symm⟩, ?_⟩
    intro hno
    obtain ⟨v, hv⟩ := hno.2.2 b sf results parameters g s.ext
    rw [hc] at hv
    simp at hv
  | ok v =>
    refine ⟨rfl, rfl, ?_⟩
    intro e he
    simp at he

theorem call_sub_function_spec {σ : Type} (E : Env σ) (inst : FunctionInstance) (g : Graph)
    (sf : FuncId) (s s1 : CallState σ) (r : Except Err Unit)
    (h : call_sub_function E inst g sf s = (r, s1)) :
    (∀ n t, s.map_node_to_tensor n = some t → s1.map_node_to_tensor n = some t) ∧
    (∃ evs, s1.log = s.log ++ evs ∧
      (∀ pr ∈ validate_calls evs, pr.2 = sf ∧
        get_colocated_function_placement_size g sf = .ok pr.1 ∧ pr.1 < E.backend_count) ∧
      (r = .ok () → (validate_calls evs).map Prod.snd = [sf])) ∧
    (r = .ok () → ∀ q ∈ (g.funcs sf).results, s1.map_node_to_tensor q ≠ none) ∧
    (∀ e, r = .error e → e ≠ .compile_before_call) ∧
    ((∃ b, get_colocated_function_placement_size g sf = .ok b ∧ b < E.backend_count) →
      (∀ p ∈ (g.funcs sf).parameters, s.map_node_to_tensor p ≠ none ∨
        ∃ r0, inst.m_map_parameter_to_result p = some r0 ∧ s.map_node_to_tensor r0 ≠ none) →
      ∀ e, r = .error e → (∃ c, e = .backend c) ∧ ¬ NoRaise E) := by
  simp only [call_sub_function] at h
  cases hp : get_colocated_function_placement_size g sf with
  | error e0 =>
    simp only [hp, Prod.mk.injEq] at h
    obtain ⟨h1, h2⟩ := h
    subst h1 h2
    refine ⟨fun _ _ hn => hn, ⟨[], by simp, by simp [validate_calls], by simp⟩, by simp, ?_, ?_⟩
    · intro e he
      simp only [Except.error.injEq] at he
      rw [← he, get_colocated_error g sf e0 hp]
      simp
    · rintro ⟨b, hb, _⟩
      simp at hb
  | ok placement =>
    simp only [hp] at h
    by_cases hlt : placement < E.backend_count
    · simp only [hlt, if_true] at h
      rcases ht : prepare_tensors E inst g placement sf s with ⟨rt, st⟩
      obtain ⟨t1, ⟨evt, t2, t3, t4⟩, t5⟩ := prepare_tensors_spec E inst g placement sf s st rt ht
      cases rt with
      | error e0 =>
        simp only [ht, Prod.mk.injEq] at h
        obtain ⟨h1, h2⟩ := h
        subst h1 h2
        refine ⟨t1, ⟨evt, t2, by simp [t3], by simp⟩, by simp, ?_, ?_⟩
        · intro e he
          simp only [Except.error.injEq] at he
          rcases t5 e (by rw [he]) with ⟨⟨c, hc⟩, _⟩ | ⟨hk, _⟩
          · rw [hc]; simp
          · rw [hk]; simp
        · intro _ havail e he
          simp only [Except.error.injEq] at he
          rcases t5 e (by rw [he]) with hb | ⟨_, p, hpm, hpn, hpr⟩
          · exact hb
          · rcases havail p hpm with hx | ⟨r0, hr0, hx⟩
            · exact absurd hpn hx
            · exact absurd (hpr r0 hr0) hx
      | ok tensors =>
        simp only [ht] at h
        obtain ⟨v1, v2, v3⟩ := invoke_spec E g placement sf tensors.1 tensors.2 st
        rw [h] at v1 v2 v3
        simp only at v1 v2 v3
        obtain ⟨u1, u2, _, _⟩ := t4 tensors.1 tensors.2 rfl
        refine ⟨?_, ⟨evt ++ [Event.call_with_validate placement sf tensors.1 tensors.2],
          ?_, ?_, ?_⟩, ?_, ?_, ?_⟩
        · intro n t hn
          rw [v1]
          exact t1 n t hn
        · rw [v2, t2, List.append_assoc]
        · intro pr hpr
          rw [validate_calls_append, t3] at hpr
          simp only [validate_calls, List.nil_append, List.mem_singleton] at hpr
          subst hpr
          exact ⟨rfl, rfl, hlt⟩
        · intro _
          rw [validate_calls_append, t3]
          rfl
        · intro _ q hq
          rw [v1]
          exact map_some_mem _ _ _ u2 q hq
        · intro e he
          obtain ⟨⟨c, hc⟩, _⟩ := v3 e he
          rw [hc]; simp
        · intro _ _ e he
          exact v3 e he
    · simp only [hlt, if_false, Prod.mk.injEq] at h
      obtain ⟨h1, h2⟩ := h
      subst h1 h2
      refine ⟨fun _ _ hn => hn, ⟨[], by simp, by simp [validate_calls], by simp⟩, by simp, ?_, ?_⟩
      · intro e he
        simp only [Except.error.injEq] at he
        rw [← he]
        simp
      · rintro ⟨b, hb, hb2⟩
        simp only [Except.ok.injEq] at hb
        exact absurd (hb ▸ hb2) hlt

theorem call_sub_functions_spec {σ : Type} (E : Env σ) (inst : FunctionInstance) (g : Graph)
    (rest : List FuncId) (s s1 : CallState σ) (r : Except Err Unit)
    (h : call_sub_functions E inst g rest s = (r, s1)) :
    (∀ n t, s.map_node_to_tensor n = some t → s1.map_node_to_tensor n = some t) ∧
    (∃ evs, s1.log = s.log ++ evs ∧
      (∀ pr ∈ validate_calls evs, pr.2 ∈ rest ∧
        get_colocated_function_placement_size g pr.2 = .ok pr.1 ∧ pr.1 < E.backend_count) ∧
      (r = .ok () → (validate_calls evs).map Prod.snd = rest)) ∧
    (∀ e, r = .error e → e ≠ .compile_before_call) ∧
    ((∀ sf ∈ rest, ∃ b, get_colocated_function_placement_size g sf = .ok b ∧
        b < E.backend_count) →
      (∀ pre sf post, rest = pre ++ sf :: post → ∀ p ∈ (g.funcs sf).parameters,
        s.map_node_to_tensor p ≠ none ∨
        ∃ r0, inst.m_map_parameter_to_result p = some r0 ∧
          (s.map_node_to_tensor r0 ≠ none ∨ ∃ sf1 ∈ pre, r0 ∈ (g.funcs sf1).results)) →
      ∀ e, r = .error e → (∃ c, e = .backend c) ∧ ¬ NoRaise E) := by
  induction rest generalizing s s1 r with
  | nil =>
    simp only [call_sub_functions, Prod.mk.injEq] at h
    obtain ⟨h1, h2⟩ := h
    subst h1 h2
    exact ⟨fun _ _ hn => hn, ⟨[], by simp, by simp [validate_calls], by simp [validate_calls]⟩,
      by simp, by simp⟩
  | cons sf tl ih =>
    simp only [call_sub_functions] at h
    rcases hc : call_sub_function E inst g sf s with ⟨rc, sc⟩
    obtain ⟨c1, ⟨evc, c2, c3, c4⟩, c5, c6, c7⟩ := call_sub_function_spec E inst g sf s sc rc hc
    cases rc with
    | error e0 =>
      simp only [hc, Prod.mk.injEq] at h
      obtain ⟨h1, h2⟩ := h
      subst h1 h2
      refine ⟨c1, ⟨evc, c2, ?_, by simp⟩, c6, ?_⟩
      · intro pr hpr
        obtain ⟨a1, a2, a3⟩ := c3 pr hpr
        exact ⟨by rw [a1]; simp, by rw [a1]; exact a2, a3⟩
      · intro hvalid hready
        apply c7 (hvalid sf (by simp))
        intro p hp
        rcases hready [] sf tl rfl p hp with hx | ⟨r0, hr0, hx | ⟨sf1, hsf1, _⟩⟩
        · exact Or.inl hx
        · exact Or.inr ⟨r0, hr0, hx⟩
        · simp at hsf1
    | ok u =>
      simp only [hc] at h
      obtain ⟨i1, ⟨evs, i2, i3, i4⟩, i5, i6⟩ := ih sc s1 r h
      have hsome : ∀ n, s.map_node_to_tensor n ≠ none → sc.map_node_to_tensor n ≠ none := by
        intro n hn
        cases hv : s.map_node_to_tensor n with
        | none => exact absurd hv hn
        | some t => rw [c1 n t hv]; simp
      refine ⟨fun n t hn => i1 n t (c1 n t hn), ⟨evc ++ evs, ?_, ?_, ?_⟩, i5, ?_⟩
      · rw [i2, c2, List.append_assoc]
      · intro pr hpr
        rw [validate_calls_append] at hpr
        rcases List.mem_append.mp hpr with hpr | hpr
        · obtain ⟨a1, a2, a3⟩ := c3 pr hpr
          exact ⟨by rw [a1]; simp, by rw [a1]; exact a2, a3⟩
        · obtain ⟨a1, a2, a3⟩ := i3 pr hpr
          exact ⟨List.mem_cons_of_mem _ a1, a2, a3⟩
      · intro hr
        rw [validate_calls_append, List.map_append, c4 rfl, i4 hr]
        rfl
      · intro hvalid hready
        apply i6 (fun sf1 hsf1 => hvalid sf1 (List.mem_cons_of_mem _ hsf1))
        intro pre sf2 post hsplit p hp
        have hsplit2 : sf :: tl = (sf :: pre) ++ sf2 :: post := by rw [hsplit]; rfl
        rcases hready (sf :: pre) sf2 post hsplit2 p hp with hx | ⟨r0, hr0, hx | ⟨sf1, hsf1, hx⟩⟩
        · exact Or.inl (hsome p hx)
        · exact Or.inr ⟨r0, hr0, Or.inl (hsome r0 hx)⟩
        · rcases List.mem_cons.mp hsf1 with heq | hmem
          · rw [heq] at hx
            exact Or.inr ⟨r0, hr0, Or.inl (c5 rfl r0 hx)⟩
          · exact Or.inr ⟨r0, hr0, Or.inr ⟨sf1, hmem, hx⟩⟩

theorem call_sub_functions_append {σ : Type} (E : Env σ) (inst : FunctionInstance) (g : Graph)
    (pre rest : List FuncId) (s s1 : CallState σ)
    (h : call_sub_functions E inst g pre s = (.ok (), s1)) :
    call_sub_functions E inst g (pre ++ rest) s = call_sub_functions E inst g rest s1 := by
  induction pre generalizing s with
  | nil =>
    simp only [call_sub_functions, Prod.mk.injEq, true_and] at h
    simp [h]
  | cons sf tl ih =>
    simp only [List.cons_append, call_sub_functions] at h ⊢
    rcases hc : call_sub_function E inst g sf s with ⟨rc, sc⟩
    cases rc with
    | error e => simp [hc] at h
    | ok u =>
      simp only [hc] at h ⊢
      exact ih _ h

/-! ## The seeded map -/

theorem seed_tensors_ok (nodes : List NodeId) (tensors : List Tensor)
    (m : NodeId → Option Tensor) (hlen : tensors.length ≤ nodes.length) :
    ∃ m1, seed_tensors nodes tensors m = .ok m1 := by
  induction nodes generalizing tensors m with
  | nil =>
    cases tensors with
    | nil => exact ⟨m, rfl⟩
    | cons t ts => simp at hlen
  | cons n ns ih =>
    cases tensors with
    | nil => exact ⟨m, rfl⟩
    | cons t ts =>
      simp only [List.length_cons, Nat.add_le_add_iff_right] at hlen
      exact ih ts _ hlen

theorem seed_tensors_frame (nodes : List NodeId) (tensors : List Tensor)
    (m m1 : NodeId → Option Tensor) (h : seed_tensors nodes tensors m = .ok m1)
    (n : NodeId) (hn : n ∉ nodes) : m1 n = m n := by
  induction nodes generalizing tensors m with
  | nil =>
    cases tensors with
    | nil => simp only [seed_tensors, Except.ok.injEq] at h; rw [← h]
    | cons t ts => simp [seed_tensors] at h
  | cons k ns ih =>
    cases tensors with
    | nil => simp only [seed_tensors, Except.ok.injEq] at h; rw [← h]
    | cons t ts =>
      simp only [seed_tensors] at h
      have hne : n ≠ k := fun e => hn (by simp [e])
      rw [ih ts _ h (fun hmem => hn (List.mem_cons_of_mem _ hmem))]
      simp [hne]

theorem seed_tensors_keeps (nodes : List NodeId) (tensors : List Tensor)
    (m m1 : NodeId → Option Tensor) (h : seed_tensors nodes tensors m = .ok m1)
    (n : NodeId) (hn : m n ≠ none) : m1 n ≠ none := by
  induction nodes generalizing tensors m with
  | nil =>
    cases tensors with
    | nil => simp only [seed_tensors, Except.ok.injEq] at h; rw [← h]; exact hn
    | cons t ts => simp [seed_tensors] at h
  | cons k ns ih =>
    cases tensors with
    | nil => simp only [seed_tensors, Except.ok.injEq] at h; rw [← h]; exact hn
    | cons t ts =>
      simp only [seed_tensors] at h
      apply ih ts _ h
      by_cases e : n = k
      · simp [e]
      · simp [e, hn]

theorem seed_tensors_covers (nodes : List NodeId) (tensors : List Tensor)
    (m m1 : NodeId → Option Tensor) (h : seed_tensors nodes tensors m = .ok m1)
    (hlen : nodes.length ≤ tensors.length) (n : NodeId) (hn : n ∈ nodes) : m1 n ≠ none := by
  induction nodes generalizing tensors m with
  | nil => simp at hn
  | cons k ns ih =>
    cases tensors with
    | nil => simp at hlen
    | cons t ts =>
      simp only [seed_tensors] at h
      simp only [List.length_cons, Nat.add_le_add_iff_right] at hlen
      rcases List.mem_cons.mp hn with e | hmem
      · exact seed_tensors_keeps ns ts _ m1 h n (by simp [e])
      · exact ih ts _ h hlen hmem

theorem seed_tensors_map (nodes : List NodeId) (tensors : List Tensor)
    (m m1 : NodeId → Option Tensor) (h : seed_tensors nodes tensors m = .ok m1)
    (hnd : nodes.Nodup) (hlen : tensors.length = nodes.length) :
    nodes.map m1 = tensors.map some := by
  induction nodes generalizing tensors m with
  | nil =>
    cases tensors with
    | nil => rfl
    | cons t ts => simp at hlen
  | cons k ns ih =>
    cases tensors with
    | nil => simp at hlen
    | cons t ts =>
      simp only [seed_tensors] at h
      simp only [List.length_cons, Nat.add_right_cancel_iff] at hlen
      have hk : k ∉ ns := (List.nodup_cons.mp hnd).1
      simp only [List.map_cons, List.cons.injEq]
      refine ⟨?_, ih ts _ h (List.nodup_cons.mp hnd).2 hlen⟩
      rw [seed_tensors_frame ns ts _ m1 h k hk]
      simp

/-! ## `call` on a cached program -/

theorem call_cached {σ : Type} (E : Env σ) (func : FuncId) (outputs inputs : List Tensor)
    (w : World σ) (inst : FunctionInstance) (m : NodeId → Option Tensor)
    (hc : w.m_function_map func = some inst)
    (hseed : seed_map w.graph inst outputs inputs = .ok m) :
    call E func outputs inputs w =
      ((call_sub_functions E inst w.graph inst.m_sub_functions
          { map_node_to_tensor := m, ext := w.ext, log := w.log }).1.map (fun _ => true),
        { w with
          ext := (call_sub_functions E inst w.graph inst.m_sub_functions
            { map_node_to_tensor := m, ext := w.ext, log := w.log }).2.ext
          log := (call_sub_functions E inst w.graph inst.m_sub_functions
            { map_node_to_tensor := m, ext := w.ext, log := w.log }).2.log }) := by
  simp [call, hc, hseed]

theorem call_cached_error {σ : Type} (E : Env σ) (func : FuncId) (outputs inputs : List Tensor)
    (w : World σ) (inst : FunctionInstance) (hc : w.m_function_map func = some inst) (e : Err)
    (he : (call E func outputs inputs w).1 = .error e) : e ≠ .compile_before_call := by
  cases hseed : seed_map w.graph inst outputs inputs with
  | error e0 =>
    simp only [call, hc, hseed, Except.error.injEq] at he
    rw [← he, seed_map_error _ _ _ _ _ hseed]
    simp
  | ok m =>
    rw [call_cached E func outputs inputs w inst m hc hseed] at he
    rcases hl : call_sub_functions E inst w.graph inst.m_sub_functions
      { map_node_to_tensor := m, ext := w.ext, log := w.log } with ⟨r, s1⟩
    obtain ⟨_, _, l3, _⟩ := call_sub_functions_spec E inst w.graph _ _ s1 r hl
    rw [hl] at he
    cases r with
    | error e1 =>
      simp only [Except.map, Except.error.injEq] at he
      exact l3 e (by rw [he])
    | ok u => simp [Except.map] at he

theorem seed_map_ok (g : Graph) (inst : FunctionInstance) (outputs inputs : List Tensor)
    (hin : inputs.length = (g.funcs inst.m_function).parameters.length)
    (hout : outputs.length = (g.funcs inst.m_function).results.length) :
    ∃ m, seed_map g inst outputs inputs = .ok m ∧
      (∀ n ∈ (g.funcs inst.m_function).parameters, m n ≠ none) ∧
      (∀ n ∈ (g.funcs inst.m_function).results, m n ≠ none) ∧
      ((g.funcs inst.m_function).results.Nodup →
        (g.funcs inst.m_function).results.map m = outputs.map some) ∧
      ((g.funcs inst.m_function).parameters.Nodup →
        (∀ n ∈ (g.funcs inst.m_function).parameters, n ∉ (g.funcs inst.m_function).results) →
        (g.funcs inst.m_function).parameters.map m = inputs.map some) := by
  obtain ⟨m0, h0⟩ := seed_tensors_ok (g.funcs inst.m_function).parameters inputs
    (fun _ => none) (le_of_eq hin)
  obtain ⟨m, h1⟩ := seed_tensors_ok (g.funcs inst.m_function).results outputs m0 (le_of_eq hout)
  refine ⟨m, by simp [seed_map, h0, h1], ?_, ?_, ?_, ?_⟩
  · intro n hn
    exact seed_tensors_keeps _ _ _ _ h1 n (seed_tensors_covers _ _ _ _ h0 (le_of_eq hin.symm) n hn)
  · intro n hn
    exact seed_tensors_covers _ _ _ _ h1 (le_of_eq hout.symm) n hn
  · intro hnd
    exact seed_tensors_map _ _ _ _ h1 hnd hout
  · intro hnd hdisj
    rw [← seed_tensors_map _ _ _ _ h0 hnd hin]
    apply List.map_congr_left
    intro n hn
    exact seed_tensors_frame _ _ _ _ h1 n (hdisj n hn)

theorem seed_tensors_get (nodes : List NodeId) (tensors : List Tensor)
    (m m1 : NodeId → Option Tensor) (h : seed_tensors nodes tensors m = .ok m1)
    (hnd : nodes.Nodup) (i : Nat) (n : NodeId) (t : Tensor)
    (hn : nodes[i]? = some n) (ht : tensors[i]? = some t) : m1 n = some t := by
  induction nodes generalizing tensors m i with
  | nil => simp at hn
  | cons k ns ih =>
    cases tensors with
    | nil => simp at ht
    | cons t0 ts =>
      simp only [seed_tensors] at h
      cases i with
      | zero =>
        simp only [List.getElem?_cons_zero, Option.some.injEq] at hn ht
        subst hn ht
        rw [seed_tensors_frame ns ts _ m1 h k (List.nodup_cons.mp hnd).1]
        simp
      | succ j =>
        simp only [List.getElem?_cons_succ] at hn ht
        exact ih ts _ h (List.nodup_cons.mp hnd).2 j hn ht

theorem seed_map_get (g : Graph) (inst : FunctionInstance) (outputs inputs : List Tensor)
    (m : NodeId → Option Tensor) (h : seed_map g inst outputs inputs = .ok m) :
    ((g.funcs inst.m_function).parameters.Nodup →
      (∀ n ∈ (g.funcs inst.m_function).parameters, n ∉ (g.funcs inst.m_function).results) →
      ∀ (i : Nat) (n : NodeId) (t : Tensor), (g.funcs inst.m_function).parameters[i]? = some n → inputs[i]? = some t →
        m n = some t) ∧
    ((g.funcs inst.m_function).results.Nodup →
      ∀ (i : Nat) (n : NodeId) (t : Tensor), (g.funcs inst.m_function).results[i]? = some n → outputs[i]? = some t →
        m n = some t) := by
  simp only [seed_map] at h
  cases h0 : seed_tensors (g.funcs inst.m_function).parameters inputs (fun _ => none) with
  | error e => simp [h0] at h
  | ok m0 =>
    simp only [h0] at h
    refine ⟨?_, ?_⟩
    · intro hnd hdisj i n t hn ht
      rw [seed_tensors_frame _ _ _ _ h n (hdisj n (List.getElem?_mem hn))]
      exact seed_tensors_get _ _ _ _ h0 hnd i n t hn ht
    · intro hnd i n t hn ht
      exact seed_tensors_get _ _ _ _ h hnd i n t hn ht

theorem reporting_env_no_raise : NoRaise reporting_env :=
  ⟨fun _ _ _ x => ⟨x.next, rfl⟩, fun _ _ _ => rfl, fun _ _ _ _ _ _ => ⟨false, rfl⟩⟩

/-- C6, at the failing input: with backends whose `call_with_validate` reports failure
by returning `false`, `call` on the compiled example still invokes the second
sub-function after the first one failed, and returns `true`. -/
theorem call_ignores_reported_failure :
    (∀ b f outputs inputs g m,
      (reporting_env.call_with_validate b f outputs inputs g m).1 = .ok false) ∧
    (compile reporting_env 7 sample_world).1 = .ok 7 ∧
    (call reporting_env 7 [2] [0, 1] (compile reporting_env 7 sample_world).2).1 = .ok true ∧
    validate_calls (call reporting_env 7 [2] [0, 1] (compile reporting_env 7 sample_world).2).2.log
      = [(1, 101), (0, 102)] :=
  ⟨fun _ _ _ _ _ _ => rfl, rfl, rfl, by decide⟩

/-- C7, refuted as stated: the backend compile of function 102 raises, the error reaches
the caller, and yet the cache is not the one before the call: program 7 is registered,
a following `call` passes the compile-before-call check and runs the sub-functions, and
a following `compile` returns the handle without compiling anything. -/
theorem compile_failure_leaves_entry :
    sample_world.m_function_map 7 = none ∧
    (compile failing_compile_env 7 sample_world).1 = .error (.backend 9) ∧
    (compile failing_compile_env 7 sample_world).2.m_function_map ≠ sample_world.m_function_map ∧
    (call failing_compile_env 7 [2] [0, 1] (compile failing_compile_env 7 sample_world).2).1
      = .ok true ∧
    compile failing_compile_env 7 (compile failing_compile_env 7 sample_world).2 =
      (.ok 7, (compile failing_compile_env 7 sample_world).2) := by
  refine ⟨rfl, rfl, ?_, rfl, rfl⟩
  intro h
  have h7 := congrFun h 7
  have hs : ((compile failing_compile_env 7 sample_world).2.m_function_map 7).isSome = true := rfl
  rw [h7] at hs
  exact absurd hs (by decide)

/-- C7, amended: when the instance of an uncached program was built, the sub-functions
before `sf` compiled, and the backend `compile` of `sf` raises, then `compile` of the
program stops there and raises the error of the backend, in the state the backend left;
no later sub-function is compiled. The cache entries of all other programs are as
before, and the instance of the program itself has been inserted and stays: compiling
again returns the handle and changes nothing, and `call` does not raise the
compile-before-call error. -/
theorem compile_failure_propagates {σ : Type} (E : Env σ) (func : FuncId) (w w1 : World σ)
    (inst : FunctionInstance) (g : Graph) (pre post : List FuncId) (sf : FuncId)
    (placement c : Nat) (st : Graph × σ) (outputs inputs : List Tensor)
    (h0 : w.m_function_map func = none)
    (hb : build_instance E func w.graph = (.ok inst, g))
    (hsplit : inst.m_sub_functions = pre ++ sf :: post)
    (hpre : compile_sub_functions E pre
      { w with graph := g, m_function_map := assign w.m_function_map func (some inst) }
        = (.ok (), w1))
    (hpl : get_colocated_function_placement_size w1.graph sf = .ok placement)
    (hlt : placement < E.backend_count)
    (hraise : E.backend_compile placement sf (w1.graph, w1.ext) = (.error c, st)) :
    compile E func w =
      (.error (.backend c),
        { w1 with graph := st.1, ext := st.2, log := w1.log ++ [Event.compile placement sf] }) ∧
    (compile_calls (compile E func w).2.log).map Prod.snd =
      (compile_calls w.log).map Prod.snd ++ pre ++ [sf] ∧
    (∀ other, other ≠ func →
      (compile E func w).2.m_function_map other = w.m_function_map other) ∧
    (compile E func w).2.m_function_map func = some inst ∧
    compile E func (compile E func w).2 = (.ok func, (compile E func w).2) ∧
    (call E func outputs inputs (compile E func w).2).1 ≠ .error .compile_before_call := by
  have hmap : (compile E func w).2.m_function_map func = some inst := by
    simp [compile, h0, hb, compile_sub_functions_map]
  have hrun : compile E func w =
      (.error (.backend c),
        { w1 with graph := st.1, ext := st.2, log := w1.log ++ [Event.compile placement sf] }) := by
    simp only [compile, h0, hb, hsplit]
    rw [compile_sub_functions_append E pre (sf :: post) _ w1 hpre]
    simp [compile_sub_functions, hpl, hlt, hraise, Except.map]
  have hpre2 := compile_sub_functions_targets E pre _ w1 hpre
  simp only at hpre2
  refine ⟨hrun, ?_, fun other ho => compile_map_other E func other w ho, hmap,
    compile_cached E func _ inst hmap, ?_⟩
  · rw [hrun]
    simp only [compile_calls_append, List.map_append, hpre2]
    rfl
  · exact fun he => call_cached_error E func outputs inputs _ inst hmap _ he rfl

/-- C2: for a cached program whose sub-functions have valid placements and come in
producer-before-consumer order (each parameter of a sub-function is a parameter of the
clone or is paired by the boundary map with a result of a strictly earlier
sub-function), and for inputs and outputs of the arity of the clone, `call` never fails a
lookup: the only error it can return is one raised by a backend; when no backend
operation raises it returns `true`; and when it returns normally `call_with_validate`
was invoked exactly once per sub-function, in the cached order, each on the backend of
its placement. -/
theorem call_well_formed {σ : Type} (E : Env σ) (func : FuncId) (outputs inputs : List Tensor)
    (w : World σ) (inst : FunctionInstance)
    (hc : w.m_function_map func = some inst)
    (hin : inputs.length = (w.graph.funcs inst.m_function).parameters.length)
    (hout : outputs.length = (w.graph.funcs inst.m_function).results.length)
    (hvalid : ∀ sf ∈ inst.m_sub_functions,
      ∃ b, get_colocated_function_placement_size w.graph sf = .ok b ∧ b < E.backend_count)
    (horder : ∀ pre sf post, inst.m_sub_functions = pre ++ sf :: post →
      ∀ p ∈ (w.graph.funcs sf).parameters,
        p ∈ (w.graph.funcs inst.m_function).parameters ∨
        ∃ r0, inst.m_map_parameter_to_result p = some r0 ∧
          ∃ sf1 ∈ pre, r0 ∈ (w.graph.funcs sf1).results) :
    (∀ e, (call E func outputs inputs w).1 = .error e → (∃ c, e = .backend c) ∧ ¬ NoRaise E) ∧
    (NoRaise E → (call E func outputs inputs w).1 = .ok true) ∧
    (∀ rc, (call E func outputs inputs w).1 = .ok rc →
      rc = true ∧
      ∃ evs, (call E func outputs inputs w).2.log = w.log ++ evs ∧
        (validate_calls evs).map Prod.snd = inst.m_sub_functions ∧
        ∀ pr ∈ validate_calls evs,
          get_colocated_function_placement_size w.graph pr.2 = .ok pr.1 ∧
            pr.1 < E.backend_count) := by
  obtain ⟨m, hseed, hpar, _, _, _⟩ := seed_map_ok w.graph inst outputs inputs hin hout
  rw [call_cached E func outputs inputs w inst m hc hseed]
  rcases hl : call_sub_functions E inst w.graph inst.m_sub_functions
    { map_node_to_tensor := m, ext := w.ext, log := w.log } with ⟨r, s1⟩
  obtain ⟨_, ⟨evs, l1, l2, l3⟩, _, l4⟩ := call_sub_functions_spec E inst w.graph _ _ s1 r hl
  have herr : ∀ e, r = .error e → (∃ c, e = .backend c) ∧ ¬ NoRaise E := by
    apply l4 hvalid
    intro pre sf post hsplit p hp
    rcases horder pre sf post hsplit p hp with hx | ⟨r0, hr0, hx⟩
    · exact Or.inl (hpar p hx)
    · exact Or.inr ⟨r0, hr0, Or.inr hx⟩
  cases r with
  | error e0 =>
    refine ⟨?_, ?_, ?_⟩
    · intro e he
      simp only [Except.map, Except.error.injEq] at he
      exact herr e (by rw [he])
    · intro hno
      exact absurd hno (herr e0 rfl).2
    · intro rc hrc
      simp [Except.map] at hrc
  | ok u =>
    refine ⟨?_, ?_, ?_⟩
    · intro e he
      simp [Except.map] at he
    · intro _
      rfl
    · intro rc hrc
      simp only [Except.map, Except.ok.injEq] at hrc
      exact ⟨hrc.symm, evs, l1, l3 rfl, fun pr hpr => (l2 pr hpr).2⟩

/-- C2, on the example: the compiled program 7 is called with inputs 0 and 1 and output
2; function 101 runs on backend 1, then function 102 on backend 0, and the call returns
`true`. -/
theorem call_well_formed_witness :
    compiled_world.m_function_map 7 = some sample_instance ∧
    (call sample_env 7 [2] [0, 1] compiled_world).1 = .ok true ∧
    validate_calls (call sample_env 7 [2] [0, 1] compiled_world).2.log = [(1, 101), (0, 102)] ∧
    (∀ rc, (call sample_env 7 [2] [0, 1] compiled_world).1 = .ok rc →
      rc = true ∧
      ∃ evs, (call sample_env 7 [2] [0, 1] compiled_world).2.log = compiled_world.log ++ evs ∧
        (validate_calls evs).map Prod.snd = [101, 102] ∧
        ∀ pr ∈ validate_calls evs,
          get_colocated_function_placement_size compiled_world.graph pr.2 = .ok pr.1 ∧
            pr.1 < 2) :=
  ⟨rfl, rfl, by decide,
    (call_well_formed sample_env 7 [2] [0, 1] compiled_world sample_instance rfl rfl rfl
      (by
        intro sf hsf
        have hsf2 : sf = 101 ∨ sf = 102 := by simpa [sample_instance] using hsf
        rcases hsf2 with h | h
        · subst h; exact ⟨1, rfl, by decide⟩
        · subst h; exact ⟨0, rfl, by decide⟩)
      (by
        intro pre sf post hsplit p hp
        have hsubs : sample_instance.m_sub_functions = [101, 102] := rfl
        rw [hsubs] at hsplit
        rcases pre with _ | ⟨a, _ | ⟨b, tl⟩⟩
        · simp only [List.nil_append, List.cons.injEq] at hsplit
          obtain ⟨h1, _⟩ := hsplit
          subst h1
          have h101 : (compiled_world.graph.funcs 101).parameters = [2] := rfl
          rw [h101] at hp
          have hp2 : p = 2 := by simpa using hp
          subst hp2
          exact Or.inl (by decide)
        · simp only [List.cons_append, List.nil_append, List.cons.injEq] at hsplit
          obtain ⟨h1, h2, _⟩ := hsplit
          subst h1 h2
          have h102 : (compiled_world.graph.funcs 102).parameters = [1, 6] := rfl
          rw [h102] at hp
          have hp2 : p = 1 ∨ p = 6 := by simpa using hp
          rcases hp2 with h | h
          · subst h; exact Or.inl (by decide)
          · subst h; exact Or.inr ⟨5, rfl, 101, by simp, by decide⟩
        · simp only [List.cons_append, List.cons.injEq] at hsplit
          obtain ⟨_, _, h3⟩ := hsplit
          simp at h3)).2.2⟩

/-! ## A single sub-function -/

theorem prepare_parameters_mapped {σ : Type} (E : Env σ) (inst : FunctionInstance) (g : Graph)
    (b : Nat) (ps : List NodeId) (s : CallState σ) (ts : List Tensor)
    (h : ps.map s.map_node_to_tensor = ts.map some) :
    prepare_parameters E inst g b ps s = (.ok ts, s) := by
  induction ps generalizing ts with
  | nil =>
    cases ts with
    | nil => rfl
    | cons t tl => simp at h
  | cons p rest ih =>
    cases ts with
    | nil => simp at h
    | cons t tl =>
      simp only [List.map_cons, List.cons.injEq] at h
      simp only [prepare_parameters, h.1, ih tl h.2, Except.map]

theorem prepare_results_mapped {σ : Type} (E : Env σ) (g : Graph)
    (b : Nat) (rs : List NodeId) (s : CallState σ) (ts : List Tensor)
    (h : rs.map s.map_node_to_tensor = ts.map some) :
    prepare_results E g b rs s = (.ok ts, s) := by
  induction rs generalizing ts with
  | nil =>
    cases ts with
    | nil => rfl
    | cons t tl => simp at h
  | cons q rest ih =>
    cases ts with
    | nil => simp at h
    | cons t tl =>
      simp only [List.map_cons, List.cons.injEq] at h
      simp only [prepare_results, h.1, ih tl h.2, Except.map]

/-- The single sub-function case of `call`: when the cached partition of a program is
the single sub-function `sf`, placed on backend 0, with the parameters and results of the
clone (pairwise distinct nodes), then for inputs and outputs of matching arity `call`
creates no tensor and copies nothing: the only backend operation is
`call_with_validate(sf, outputs, inputs)` on backend 0 with the caller's own lists, and
the state it leaves is the state a direct call on backend 0 leaves. The flag it returns
is not the flag of the direct call: it is `true` whenever the direct call returns. -/
theorem single_backend_call {σ : Type} (E : Env σ) (func : FuncId)
    (outputs inputs : List Tensor) (w : World σ) (inst : FunctionInstance) (sf : FuncId)
    (hc : w.m_function_map func = some inst)
    (hsub : inst.m_sub_functions = [sf])
    (hpl : get_colocated_function_placement_size w.graph sf = .ok 0)
    (hb : 0 < E.backend_count)
    (_hbm : ∀ p, inst.m_map_parameter_to_result p = none)
    (hpar : (w.graph.funcs sf).parameters = (w.graph.funcs inst.m_function).parameters)
    (hres : (w.graph.funcs sf).results = (w.graph.funcs inst.m_function).results)
    (hnd1 : (w.graph.funcs inst.m_function).parameters.Nodup)
    (hnd2 : (w.graph.funcs inst.m_function).results.Nodup)
    (hdisj : ∀ n ∈ (w.graph.funcs inst.m_function).parameters,
      n ∉ (w.graph.funcs inst.m_function).results)
    (hin : inputs.length = (w.graph.funcs inst.m_function).parameters.length)
    (hout : outputs.length = (w.graph.funcs inst.m_function).results.length) :
    (call E func outputs inputs w).2 = (direct_call E 0 sf outputs inputs w).2 ∧
    (call E func outputs inputs w).2.log =
      w.log ++ [Event.call_with_validate 0 sf outputs inputs] ∧
    (call E func outputs inputs w).1 =
      (direct_call E 0 sf outputs inputs w).1.map (fun _ => true) := by
  obtain ⟨m, hseed, _, _, hm2, hm1⟩ := seed_map_ok w.graph inst outputs inputs hin hout
  have hp := prepare_parameters_mapped E inst w.graph 0 (w.graph.funcs sf).parameters
    { map_node_to_tensor := m, ext := w.ext, log := w.log } inputs
    (by rw [hpar]; exact hm1 hnd1 hdisj)
  have hr := prepare_results_mapped E w.graph 0 (w.graph.funcs sf).results
    { map_node_to_tensor := m, ext := w.ext, log := w.log } outputs
    (by rw [hres]; exact hm2 hnd2)
  rw [call_cached E func outputs inputs w inst m hc hseed, hsub]
  simp only [call_sub_functions, call_sub_function, hpl, hb, if_true, prepare_tensors, hp, hr,
    Except.map, invoke, direct_call]
  rcases hcall : E.call_with_validate 0 sf outputs inputs w.graph w.ext with ⟨rc, x⟩
  cases rc <;> simp

/-- The single sub-function case on the example: the call is the one invocation on
backend 0 with the caller's tensors 2 and 0, 1. -/
theorem single_backend_call_example :
    (call single_env 7 [2] [0, 1] single_world).2 =
      (direct_call single_env 0 100 [2] [0, 1] single_world).2 ∧
    (call single_env 7 [2] [0, 1] single_world).2.log =
      [Event.call_with_validate 0 100 [2] [0, 1]] ∧
    (call single_env 7 [2] [0, 1] single_world).1 = .ok true ∧
    (call single_env 7 [2] [0, 1] single_world).2.ext.value 2 = 7 :=
  have h := single_backend_call single_env 7 [2] [0, 1] single_world
    ⟨100, [100], fun _ => none⟩ 100 rfl rfl rfl (by decide) (fun _ => rfl) rfl rfl
    (by decide) (by decide) (by decide) rfl rfl
  ⟨h.1, h.2.1, rfl, by decide⟩

/-- C5, at the failing input: program 7 is cached with the single sub-function 100 on
backend 0, which has the parameters and results of the clone, and with an empty boundary
map; the caller's lists have the arity of the program. The backend reports failure by
returning `false`. The only backend operation of `call` is the invocation with the
caller's lists and the state is the one a direct call leaves, but the direct call returns
`false` and `call` returns `true`: `call` is not equal to the direct call. -/
theorem single_backend_call_differs :
    (single_world.m_function_map 7).map (fun inst => inst.m_sub_functions) = some [100] ∧
    get_colocated_function_placement_size single_world.graph 100 = .ok 0 ∧
    (call single_reporting_env 7 [2] [0, 1] single_world).2.log =
      [Event.call_with_validate 0 100 [2] [0, 1]] ∧
    (call single_reporting_env 7 [2] [0, 1] single_world).2 =
      (direct_call single_reporting_env 0 100 [2] [0, 1] single_world).2 ∧
    (direct_call single_reporting_env 0 100 [2] [0, 1] single_world).1 = .ok false ∧
    (call single_reporting_env 7 [2] [0, 1] single_world).1 = .ok true ∧
    (call single_reporting_env 7 [2] [0, 1] single_world).1 ≠
      (direct_call single_reporting_env 0 100 [2] [0, 1] single_world).1 := by
  have h := single_backend_call single_reporting_env 7 [2] [0, 1] single_world
    ⟨100, [100], fun _ => none⟩ 100 rfl rfl rfl (by decide) (fun _ => rfl) rfl rfl
    (by decide) (by decide) (by decide) rfl rfl
  have hd : (direct_call single_reporting_env 0 100 [2] [0, 1] single_world).1 = .ok false := rfl
  have hcall : (call single_reporting_env 7 [2] [0, 1] single_world).1 = .ok true := rfl
  refine ⟨rfl, rfl, h.2.1, h.1, hd, hcall, ?_⟩
  rw [hd, hcall]
  intro he
  simp only [Except.ok.injEq] at he
  exact absurd he (by decide)

/-! ## The tensor lists of one invocation -/

/-- C1: take a cached program, a call whose map was seeded, and a sub-function `sf` of
the cached list that the call reaches: the sub-functions before it ran, its placement is
a registered backend and its two preparation loops completed with the lists `results`
and `parameters`. Then `call_with_validate(sf, results, parameters)` is the next backend
operation, on the backend of the placement, and

* the lists have one tensor per result and per parameter of `sf`, in the order of `sf`:
  the tensor the node is mapped to;
* a node that was mapped when the loops began keeps its tensor, and so does a node of the
  seeded map; the parameter (result) of the clone at position `i` is mapped to
  `inputs[i]` (`outputs[i]`), the parameters and results of the clone being pairwise
  distinct nodes;
* a parameter that was not mapped gets a tensor created on the backend of `sf` with the
  element type and shape of the parameter, and the very next operation copies into it
  the tensor mapped to the result paired with it by the boundary map;
* a result that was not mapped gets a tensor created on the backend of `sf` with the
  element type and shape of the result;

and all of these operations precede the invocation in the log. -/
theorem call_tensor_lists {σ : Type} (E : Env σ) (func : FuncId) (outputs inputs : List Tensor)
    (w : World σ) (inst : FunctionInstance) (m : NodeId → Option Tensor)
    (pre post : List FuncId) (sf : FuncId) (placement : Nat) (s s1 : CallState σ)
    (results parameters : List Tensor)
    (hc : w.m_function_map func = some inst)
    (hseed : seed_map w.graph inst outputs inputs = .ok m)
    (hsplit : inst.m_sub_functions = pre ++ sf :: post)
    (hpre : call_sub_functions E inst w.graph pre
      { map_node_to_tensor := m, ext := w.ext, log := w.log } = (.ok (), s))
    (hpl : get_colocated_function_placement_size w.graph sf = .ok placement)
    (hlt : placement < E.backend_count)
    (hprep : prepare_tensors E inst w.graph placement sf s = (.ok (results, parameters), s1)) :
    (∃ later, (call E func outputs inputs w).2.log =
      s1.log ++ Event.call_with_validate placement sf results parameters :: later) ∧
    parameters.map some = (w.graph.funcs sf).parameters.map s1.map_node_to_tensor ∧
    results.map some = (w.graph.funcs sf).results.map s1.map_node_to_tensor ∧
    parameters.length = (w.graph.funcs sf).parameters.length ∧
    results.length = (w.graph.funcs sf).results.length ∧
    (∀ n t, s.map_node_to_tensor n = some t → s1.map_node_to_tensor n = some t) ∧
    (∀ n t, m n = some t → s1.map_node_to_tensor n = some t) ∧
    ((w.graph.funcs inst.m_function).parameters.Nodup →
      (∀ n ∈ (w.graph.funcs inst.m_function).parameters,
        n ∉ (w.graph.funcs inst.m_function).results) →
      ∀ (i : Nat) (n : NodeId) (t : Tensor), (w.graph.funcs inst.m_function).parameters[i]? = some n →
        inputs[i]? = some t → s1.map_node_to_tensor n = some t) ∧
    ((w.graph.funcs inst.m_function).results.Nodup →
      ∀ (i : Nat) (n : NodeId) (t : Tensor), (w.graph.funcs inst.m_function).results[i]? = some n →
        outputs[i]? = some t → s1.map_node_to_tensor n = some t) ∧
    (∃ evs, s1.log = s.log ++ evs ∧ validate_calls evs = [] ∧
      (∀ p ∈ (w.graph.funcs sf).parameters, s.map_node_to_tensor p = none →
        ∃ t r0 rt l1 l2, s1.map_node_to_tensor p = some t ∧
          inst.m_map_parameter_to_result p = some r0 ∧ s1.map_node_to_tensor r0 = some rt ∧
          evs = l1 ++ [Event.create_tensor placement (w.graph.nodes p).element_type
            (w.graph.nodes p).shape (some t), Event.copy_from t rt] ++ l2) ∧
      (∀ q ∈ (w.graph.funcs sf).results, s.map_node_to_tensor q = none →
        q ∉ (w.graph.funcs sf).parameters →
        ∃ t, s1.map_node_to_tensor q = some t ∧
          Event.create_tensor placement (w.graph.nodes q).element_type
            (w.graph.nodes q).shape (some t) ∈ evs)) := by
  obtain ⟨t1, ⟨evt, t2, t3, t4⟩, _⟩ :=
    prepare_tensors_spec E inst w.graph placement sf s s1 _ hprep
  obtain ⟨u1, u2, u3, u4⟩ := t4 results parameters rfl
  obtain ⟨p1, _, _, _⟩ := call_sub_functions_spec E inst w.graph pre _ s _ hpre
  simp only at p1
  obtain ⟨g1, g2⟩ := seed_map_get w.graph inst outputs inputs m hseed
  have hmono : ∀ n t, m n = some t → s1.map_node_to_tensor n = some t :=
    fun n t hn => t1 n t (p1 n t hn)
  refine ⟨?_, u1, u2, ?_, ?_, t1, hmono, ?_, ?_, ⟨evt, t2, t3, u3, u4⟩⟩
  · rw [call_cached E func outputs inputs w inst m hc hseed, hsplit,
      call_sub_functions_append E inst w.graph pre (sf :: post) _ s hpre]
    simp only [call_sub_functions, call_sub_function, hpl, hlt, if_true, hprep]
    obtain ⟨_, v2, _⟩ := invoke_spec E w.graph placement sf results parameters s1
    rcases hi : invoke E w.graph placement sf results parameters s1 with ⟨ri, si⟩
    rw [hi] at v2
    simp only at v2
    cases ri with
    | error e => exact ⟨[], by simp [v2]⟩
    | ok u =>
      simp only
      rcases hl : call_sub_functions E inst w.graph post si with ⟨rl, sl⟩
      obtain ⟨_, ⟨evs, l1, _, _⟩, _, _⟩ := call_sub_functions_spec E inst w.graph post si sl rl hl
      exact ⟨evs, by simp [l1, v2]⟩
  · have := congrArg List.length u1
    simpa using this
  · have := congrArg List.length u2
    simpa using this
  · intro hnd hdisj i n t hn ht
    exact hmono n t (g1 hnd hdisj i n t hn ht)
  · intro hnd i n t hn ht
    exact hmono n t (g2 hnd i n t hn ht)

/-- C1, on the example `C = A + B`: function 102 (`A`, `C` on backend 0) is reached after
function 101 (`B` on backend 1) ran; its parameter 1 is the caller's input 0, its
boundary parameter 6 gets the new backend-0 tensor 11, into which tensor 10, the
backend-1 result of `B`, is copied before the invocation; the output then holds 3 + 4. -/
theorem call_tensor_lists_witness :
    (call sample_env 7 [2] [0, 1] compiled_world).2.log = compiled_world.log ++
      [Event.create_tensor 1 32 [1] (some 10), Event.call_with_validate 1 101 [10] [1],
       Event.create_tensor 0 32 [1] (some 11), Event.copy_from 11 10,
       Event.call_with_validate 0 102 [2] [0, 11]] ∧
    (call sample_env 7 [2] [0, 1] compiled_world).2.ext.value 2 = 7 ∧
    (∃ later, (call sample_env 7 [2] [0, 1] compiled_world).2.log =
      (prepare_tensors sample_env sample_instance compiled_world.graph 0 102 sample_state).2.log
        ++ Event.call_with_validate 0 102 [2] [0, 11] :: later) ∧
    [0, 11].map some = (compiled_world.graph.funcs 102).parameters.map
      (prepare_tensors sample_env sample_instance compiled_world.graph 0 102
        sample_state).2.map_node_to_tensor :=
  have h := call_tensor_lists sample_env 7 [2] [0, 1] compiled_world sample_instance
    sample_seed [101] [] 102 0 sample_state
    (prepare_tensors sample_env sample_instance compiled_world.graph 0 102 sample_state).2
    [2] [0, 11] rfl rfl rfl rfl rfl (by decide) rfl
  ⟨by decide, by decide, h.1, h.2.1⟩

/-- C7 amended, on the example: function 101 compiles on backend 1, the compile of
function 102 on backend 0 raises error 9 and `compile` raises it; program 7 is registered
with its instance all the same, and a second `compile` is the identity. -/
theorem compile_failure_propagates_witness :
    sample_world.m_function_map 7 = none ∧
    build_instance failing_compile_env 7 sample_world.graph = (.ok sample_instance, sample_graph) ∧
    (∀ st, failing_compile_env.backend_compile 0 102 st = (.error 9, st)) ∧
    (compile failing_compile_env 7 sample_world).1 = .error (.backend 9) ∧
    compile_calls (compile failing_compile_env 7 sample_world).2.log = [(1, 101), (0, 102)] ∧
    (compile failing_compile_env 7 sample_world).2.m_function_map 7 = some sample_instance ∧
    compile failing_compile_env 7 (compile failing_compile_env 7 sample_world).2 =
      (.ok 7, (compile failing_compile_env 7 sample_world).2) ∧
    (call failing_compile_env 7 [2] [0, 1] (compile failing_compile_env 7 sample_world).2).1
      ≠ .error .compile_before_call :=
  have h := compile_failure_propagates failing_compile_env 7 sample_world
    (compile_sub_functions failing_compile_env [101]
      { sample_world with
        graph := sample_graph
        m_function_map := assign sample_world.m_function_map 7 (some sample_instance) }).2
    sample_instance sample_graph [101] [] 102 0 9
    ((compile_sub_functions failing_compile_env [101]
      { sample_world with
        graph := sample_graph
        m_function_map := assign sample_world.m_function_map 7 (some sample_instance) }).2.graph,
     (compile_sub_functions failing_compile_env [101]
      { sample_world with
        graph := sample_graph
        m_function_map := assign sample_world.m_function_map 7 (some sample_instance) }).2.ext)
    [2] [0, 1] rfl rfl rfl rfl rfl (by decide) rfl
  ⟨rfl, rfl, fun _ => rfl, congrArg Prod.fst h.1, by decide, h.2.2.2.1, h.2.2.2.2.1,
    h.2.2.2.2.2⟩

/-! ## An unregistered backend index -/

/-- C8, refuted as stated: with one registered backend and the partition `101, 102`
where function 102 is placed on the unregistered index 1, `compile` fails, but only
after backend 0 was asked to compile function 101. -/
theorem compile_reaches_backend_first :
    get_colocated_function_placement_size swapped_graph 102 = .ok 1 ∧
    ¬ (1 < one_backend_env.backend_count) ∧
    (compile one_backend_env 7 swapped_world).1 = .error .out_of_range ∧
    (compile one_backend_env 7 swapped_world).2.log = [Event.compile 0 101] :=
  ⟨rfl, by decide, rfl, by decide⟩

/-- C8, amended: an unregistered backend index is met only when the loop of `compile`
reaches the sub-function that has it. When the sub-functions before it compiled, `compile`
fails there, in the state those compiles left: each of the preceding sub-functions was
handed to a backend `compile`, once and in order, and neither the offending sub-function
nor a later one was. -/
theorem compile_unregistered_backend {σ : Type} (E : Env σ) (func : FuncId) (w w1 : World σ)
    (inst : FunctionInstance) (g : Graph) (pre post : List FuncId) (sf : FuncId)
    (placement : Nat)
    (h0 : w.m_function_map func = none)
    (hb : build_instance E func w.graph = (.ok inst, g))
    (hsplit : inst.m_sub_functions = pre ++ sf :: post)
    (hpre : compile_sub_functions E pre
      { w with graph := g, m_function_map := assign w.m_function_map func (some inst) }
        = (.ok (), w1))
    (hpl : get_colocated_function_placement_size w1.graph sf = .ok placement)
    (hbad : ¬ placement < E.backend_count) :
    compile E func w = (.error .out_of_range, w1) ∧
    (compile_calls w1.log).map Prod.snd = (compile_calls w.log).map Prod.snd ++ pre := by
  refine ⟨?_, ?_⟩
  · simp only [compile, h0, hb, hsplit]
    rw [compile_sub_functions_append E pre (sf :: post) _ w1 hpre]
    simp [compile_sub_functions, hpl, hbad, Except.map]
  · have ht := compile_sub_functions_targets E pre _ w1 hpre
    exact ht

/-- C8 amended, on the example with one backend: function 101 is compiled on backend 0,
then the index 1 of function 102 is out of range. -/
theorem compile_unregistered_backend_witness :
    swapped_world.m_function_map 7 = none ∧
    ¬ (1 < one_backend_env.backend_count) ∧
    (compile one_backend_env 7 swapped_world).1 = .error .out_of_range ∧
    (compile_calls (compile one_backend_env 7 swapped_world).2.log).map Prod.snd = [101] :=
  have h := compile_unregistered_backend one_backend_env 7 swapped_world
    (compile_sub_functions one_backend_env [101]
      { swapped_world with
        graph := swapped_graph
        m_function_map := assign swapped_world.m_function_map 7 (some sample_instance) }).2
    sample_instance swapped_graph [101] [] 102 1 rfl rfl rfl rfl rfl (by decide)
  ⟨rfl, by decide, congrArg Prod.fst h.1, (congrArg (fun r => (compile_calls r.2.log).map Prod.snd)
    h.1).trans h.2⟩

/-! ## The placement index after `compile` -/

theorem reset_placement_funcs (ops : List NodeId) (p : Nat) (g : Graph) :
    (reset_placement ops p g).funcs = g.funcs := by
  induction ops generalizing g with
  | nil => rfl
  | cons op rest ih => simp [reset_placement, ih, set_placement_index]

theorem reset_placement_other (ops : List NodeId) (p : Nat) (g : Graph) (n : NodeId)
    (hn : n ∉ ops) : (reset_placement ops p g).nodes n = g.nodes n := by
  induction ops generalizing g with
  | nil => rfl
  | cons op rest ih =>
    have hne : n ≠ op := fun e => hn (by simp [e])
    simp only [reset_placement]
    rw [ih _ (fun hmem => hn (List.mem_cons_of_mem _ hmem))]
    simp [set_placement_index, hne]

theorem reset_placement_mem (ops : List NodeId) (p : Nat) (g : Graph) (n : NodeId)
    (hn : n ∈ ops) : ((reset_placement ops p g).nodes n).placement_index = p := by
  induction ops generalizing g with
  | nil => simp at hn
  | cons op rest ih =>
    simp only [reset_placement]
    by_cases hmem : n ∈ rest
    · exact ih _ hmem
    · have e : n = op := by
        rcases List.mem_cons.mp hn with h | h
        · exact h
        · exact absurd h hmem
      rw [reset_placement_other rest p _ n hmem, e]
      simp [set_placement_index]

theorem get_colocated_uniform (g : Graph) (f : FuncId) (b : Nat)
    (hne : (g.funcs f).ops ≠ [])
    (hall : ∀ n ∈ (g.funcs f).ops, (g.nodes n).placement_index = b) :
    get_colocated_function_placement_size g f = .ok b := by
  simp only [get_colocated_function_placement_size]
  cases hops : (g.funcs f).ops with
  | nil => exact absurd hops hne
  | cons n rest =>
    rw [hops] at hall
    have hn : (g.nodes n).placement_index = b := hall n (by simp)
    have hrest : (rest.all fun m =>
        (g.nodes m).placement_index == (g.nodes n).placement_index) = true := by
      rw [List.all_eq_true]
      intro m hm
      rw [hall m (List.mem_cons_of_mem _ hm), hn]
      simp
    show (if (rest.all fun m =>
        (g.nodes m).placement_index == (g.nodes n).placement_index) = true then
      Except.ok (g.nodes n).placement_index else Except.error Err.placement) = Except.ok b
    rw [if_pos hrest, hn]

theorem compile_sub_functions_placement {σ : Type} (E : Env σ) (subs : List FuncId)
    (hlocal : CompileLocal E subs) (rest : List FuncId) (w w1 : World σ)
    (h : compile_sub_functions E rest w = (.ok (), w1))
    (hnd : rest.Nodup) (hsub : ∀ f ∈ rest, f ∈ subs) (hsep : Separate w.graph subs) :
    Separate w1.graph subs ∧
    (∀ g ∈ subs, g ∉ rest → w1.graph.funcs g = w.graph.funcs g ∧
      ∀ n ∈ (w.graph.funcs g).ops, w1.graph.nodes n = w.graph.nodes n) ∧
    ∃ evs, w1.log = w.log ++ evs ∧ (compile_calls evs).map Prod.snd = rest ∧
      ∀ pr ∈ compile_calls evs, pr.1 < E.backend_count ∧
        ∀ n ∈ (w1.graph.funcs pr.2).ops, (w1.graph.nodes n).placement_index = pr.1 := by
  induction rest generalizing w with
  | nil =>
    simp only [compile_sub_functions, Prod.mk.injEq, true_and] at h
    subst h
    exact ⟨hsep, fun g _ _ => ⟨rfl, fun _ _ => rfl⟩, [], by simp, rfl, by simp [compile_calls]⟩
  | cons f tl ih =>
    simp only [compile_sub_functions] at h
    cases hp : get_colocated_function_placement_size w.graph f with
    | error e => simp [hp] at h
    | ok placement =>
      simp only [hp] at h
      by_cases hlt : placement < E.backend_count
      · simp only [hlt, if_true] at h
        rcases hc : E.backend_compile placement f (w.graph, w.ext) with ⟨rc, st⟩
        cases rc with
        | error c => simp [hc] at h
        | ok u =>
          simp only [hc] at h
          have hf : f ∈ subs := hsub f (by simp)
          have hftl : f ∉ tl := (List.nodup_cons.mp hnd).1
          obtain ⟨hsep1, hframe⟩ := hlocal placement f (w.graph, w.ext) st hf hsep hc
          simp only at hframe
          have hsep2 : Separate (reset_placement (st.1.funcs f).ops placement st.1) subs := by
            simpa [Separate, reset_placement_funcs] using hsep1
          obtain ⟨i1, i2, evs, i3, i4, i5⟩ := ih _ h (List.nodup_cons.mp hnd).2
            (fun f1 hf1 => hsub f1 (List.mem_cons_of_mem _ hf1)) hsep2
          simp only [reset_placement_funcs] at i2
          simp only at i3
          refine ⟨i1, ?_, Event.compile placement f :: evs, ?_, ?_, ?_⟩
          · intro g hg hgn
            have hgf : g ≠ f := fun e => hgn (by simp [e])
            have hgtl : g ∉ tl := fun hmem => hgn (List.mem_cons_of_mem _ hmem)
            obtain ⟨a1, a2⟩ := i2 g hg hgtl
            obtain ⟨b1, b2⟩ := hframe g hg hgf
            refine ⟨a1.trans b1, ?_⟩
            intro n hn
            rw [a2 n (by rw [b1]; exact hn)]
            have hnf : n ∉ (st.1.funcs f).ops :=
              hsep1.2 g hg f hf hgf n (by rw [b1]; exact hn)
            rw [reset_placement_other _ _ _ n hnf]
            exact b2 n hn
          · rw [i3]
            simp
          · simp [compile_calls, i4]
          · intro pr hpr
            simp only [compile_calls, List.mem_cons] at hpr
            rcases hpr with hpr | hpr
            · subst hpr
              obtain ⟨a1, a2⟩ := i2 f hf hftl
              refine ⟨hlt, ?_⟩
              intro n hn
              simp only at hn ⊢
              rw [a1] at hn
              rw [a2 n hn]
              exact reset_placement_mem _ _ _ n hn
            · exact i5 pr hpr
      · simp [hlt] at h

theorem call_dispatch {σ : Type} (E : Env σ) (func : FuncId) (outputs inputs : List Tensor)
    (w : World σ) (inst : FunctionInstance) (hc : w.m_function_map func = some inst) :
    ∃ later, (call E func outputs inputs w).2.log = w.log ++ later ∧
      ∀ pr ∈ validate_calls later, pr.2 ∈ inst.m_sub_functions ∧
        get_colocated_function_placement_size w.graph pr.2 = .ok pr.1 ∧
        pr.1 < E.backend_count := by
  cases hseed : seed_map w.graph inst outputs inputs with
  | error e =>
    refine ⟨[], ?_, by simp [validate_calls]⟩
    simp [call, hc, hseed]
  | ok m =>
    rw [call_cached E func outputs inputs w inst m hc hseed]
    rcases hl : call_sub_functions E inst w.graph inst.m_sub_functions
      { map_node_to_tensor := m, ext := w.ext, log := w.log } with ⟨r, s1⟩
    obtain ⟨_, ⟨evs, l1, l2, _⟩, _, _⟩ := call_sub_functions_spec E inst w.graph _ _ s1 r hl
    exact ⟨evs, l1, l2⟩

/-- C9: when `compile` of an uncached program succeeds, the sub-functions of its instance
being distinct and separate and the backend compiles being local to their sub-function,
then each sub-function was compiled once, in order, and in the state `compile` leaves
every op of every sub-function (the nodes put there by the backend included) carries as
placement index the index of the backend that compiled the sub-function; the placement
of the sub-function read from its ops is that index, and every `call_with_validate` of a
following `call` goes to the backend that compiled its sub-function. -/
theorem compile_placement_index {σ : Type} (E : Env σ) (func : FuncId) (w : World σ)
    (inst : FunctionInstance) (g : Graph) (outputs inputs : List Tensor)
    (h0 : w.m_function_map func = none)
    (hb : build_instance E func w.graph = (.ok inst, g))
    (hnd : inst.m_sub_functions.Nodup)
    (hsep : Separate g inst.m_sub_functions)
    (hlocal : CompileLocal E inst.m_sub_functions)
    (hok : (compile E func w).1 = .ok func) :
    (compile E func w).2.m_function_map func = some inst ∧
    ∃ evs, (compile E func w).2.log = w.log ++ evs ∧
      (compile_calls evs).map Prod.snd = inst.m_sub_functions ∧
      (∀ pr ∈ compile_calls evs, pr.1 < E.backend_count ∧
        (∀ n ∈ ((compile E func w).2.graph.funcs pr.2).ops,
          ((compile E func w).2.graph.nodes n).placement_index = pr.1) ∧
        get_colocated_function_placement_size (compile E func w).2.graph pr.2 = .ok pr.1) ∧
      ∃ later, (call E func outputs inputs (compile E func w).2).2.log =
          (compile E func w).2.log ++ later ∧
        ∀ pr ∈ validate_calls later, pr ∈ compile_calls evs := by
  have hmap : (compile E func w).2.m_function_map func = some inst := by
    simp [compile, h0, hb, compile_sub_functions_map]
  rcases hl : compile_sub_functions E inst.m_sub_functions
    { w with graph := g, m_function_map := assign w.m_function_map func (some inst) }
    with ⟨r, w1⟩
  have hw1 : (compile E func w).2 = w1 := by simp [compile, h0, hb, hl]
  have hr : r = .ok () := by
    have h1 : (compile E func w).1 = r.map (fun _ => func) := by simp [compile, h0, hb, hl]
    rw [h1] at hok
    cases r with
    | error e => simp [Except.map] at hok
    | ok u => rfl
  subst hr
  obtain ⟨c1, _, evs, c3, c4, c5⟩ := compile_sub_functions_placement E inst.m_sub_functions
    hlocal inst.m_sub_functions _ w1 hl hnd (fun _ hf => hf) hsep
  simp only at c3
  rw [hw1] at hmap ⊢
  have hplace : ∀ pr ∈ compile_calls evs,
      get_colocated_function_placement_size w1.graph pr.2 = .ok pr.1 := by
    intro pr hpr
    have hmem : pr.2 ∈ inst.m_sub_functions := by
      rw [← c4]
      exact List.mem_map_of_mem Prod.snd hpr
    exact get_colocated_uniform w1.graph pr.2 pr.1 (c1.1 pr.2 hmem) (c5 pr hpr).2
  refine ⟨hmap, evs, c3, c4, fun pr hpr => ⟨(c5 pr hpr).1, (c5 pr hpr).2, hplace pr hpr⟩, ?_⟩
  obtain ⟨later, d1, d2⟩ := call_dispatch E func outputs inputs w1 inst hmap
  refine ⟨later, d1, ?_⟩
  intro pr hpr
  obtain ⟨e1, e2, _⟩ := d2 pr hpr
  rw [← c4] at e1
  obtain ⟨pr1, hpr1, hsnd⟩ := List.mem_map.mp e1
  have e3 := hplace pr1 hpr1
  rw [hsnd, e2] at e3
  simp only [Except.ok.injEq] at e3
  have : pr = pr1 := Prod.ext e3 hsnd.symm
  rw [this]
  exact hpr1

theorem fresh_node_gt (gr : Graph) (n : NodeId)
    (hn : n ∈ (gr.funcs 101).ops ∨ n ∈ (gr.funcs 102).ops) : n < fresh_node gr := by
  have hmem : n ∈ (gr.funcs 101).ops ++ (gr.funcs 102).ops := List.mem_append.mpr hn
  have hle : n ≤ ((gr.funcs 101).ops ++ (gr.funcs 102).ops).sum :=
    List.single_le_sum (fun _ _ => Nat.zero_le _) n hmem
  exact Nat.lt_succ_of_le hle

theorem replacing_env_local : CompileLocal replacing_env sample_instance.m_sub_functions := by
  intro b f st st1 hf hsep hc
  have hsubs : sample_instance.m_sub_functions = [101, 102] := rfl
  rw [hsubs] at hf hsep ⊢
  obtain ⟨hne, hdis⟩ := hsep
  have hf2 : f = 101 ∨ f = 102 := by simpa using hf
  rcases hf2 with e | e
  · subst e
    have hst : st1 = st := by
      simp only [replacing_env] at hc
      simpa using hc.symm
    subst hst
    exact ⟨⟨hne, hdis⟩, fun g _ _ => ⟨rfl, fun _ _ => rfl⟩⟩
  · subst e
    have hst : st1 = (replace_op st.1, st.2) := by
      simp only [replacing_env] at hc
      simpa using hc.symm
    subst hst
    simp only [replace_op]
    have h101 : (assign st.1.funcs 102
        ⟨(st.1.funcs 102).parameters, (st.1.funcs 102).results,
          (st.1.funcs 102).ops.map (fun n => if n = 3 then fresh_node st.1 else n)⟩) 101
        = st.1.funcs 101 := by simp
    have hsplit : ∀ n, n ∈ (st.1.funcs 102).ops.map
        (fun n => if n = 3 then fresh_node st.1 else n) →
        n = fresh_node st.1 ∨ n ∈ (st.1.funcs 102).ops := by
      intro n hn
      obtain ⟨k, hk, hkn⟩ := List.mem_map.mp hn
      by_cases h3 : k = 3
      · left; simp [h3] at hkn; exact hkn.symm
      · right; simp [h3] at hkn; rw [← hkn]; exact hk
    have hcross : ∀ n, n ∈ (st.1.funcs 101).ops → n ∉ (st.1.funcs 102).ops.map
        (fun n => if n = 3 then fresh_node st.1 else n) := by
      intro n hn hmem
      rcases hsplit n hmem with h | h
      · exact absurd h (Nat.ne_of_lt (fresh_node_gt st.1 n (Or.inl hn)))
      · exact hdis 101 (by simp) 102 (by simp) (by decide) n hn h
    refine ⟨⟨?_, ?_⟩, ?_⟩
    · intro g hg
      have hg2 : g = 101 ∨ g = 102 := by simpa using hg
      rcases hg2 with e | e
      · subst e
        simp only [h101]
        exact hne 101 (by simp)
      · subst e
        simp only [assign_same]
        intro hnil
        exact hne 102 (by simp) (List.map_eq_nil_iff.mp hnil)
    · intro f1 hf1 g hg hfg n hn
      have hf2 : f1 = 101 ∨ f1 = 102 := by simpa using hf1
      have hg2 : g = 101 ∨ g = 102 := by simpa using hg
      rcases hf2 with e1 | e1 <;> rcases hg2 with e2 | e2
      · exact absurd (e1.trans e2.symm) hfg
      · subst e1 e2
        simp only [h101] at hn
        simp only [assign_same]
        exact hcross n hn
      · subst e1 e2
        simp only [assign_same] at hn
        simp only [h101]
        intro hmem
        exact hcross n hmem hn
      · exact absurd (e1.trans e2.symm) hfg
    · intro g hg hgf
      have hg2 : g = 101 ∨ g = 102 := by simpa using hg
      rcases hg2 with e | e
      · subst e
        refine ⟨h101, ?_⟩
        intro n hn
        have hlt := fresh_node_gt st.1 n (Or.inl hn)
        have hne2 : n ≠ fresh_node st.1 := Nat.ne_of_lt hlt
        simp [hne2]
      · exact absurd e hgf

/-- C9, on the example with a backend that replaces node 3 of function 102 by the new
node 22 and gives it the placement index 99: after `compile` the ops of function 102 are
`1, 6, 22, 4`, all with placement index 0, and the following call runs function 101 on
backend 1 and function 102 on backend 0, the backends that compiled them. -/
theorem compile_placement_index_witness :
    sample_instance.m_sub_functions.Nodup ∧
    Separate sample_graph sample_instance.m_sub_functions ∧
    CompileLocal replacing_env sample_instance.m_sub_functions ∧
    ((compile replacing_env 7 sample_world).2.graph.funcs 102).ops = [1, 6, 22, 4] ∧
    ((compile replacing_env 7 sample_world).2.graph.nodes 22).placement_index = 0 ∧
    compile_calls (compile replacing_env 7 sample_world).2.log = [(1, 101), (0, 102)] ∧
    validate_calls (call replacing_env 7 [2] [0, 1] (compile replacing_env 7 sample_world).2).2.log
      = [(1, 101), (0, 102)] ∧
    (compile replacing_env 7 sample_world).2.m_function_map 7 = some sample_instance :=
  have hsep : Separate sample_graph sample_instance.m_sub_functions := by
    refine ⟨?_, ?_⟩
    · intro f hf
      have hf2 : f = 101 ∨ f = 102 := by simpa [sample_instance] using hf
      rcases hf2 with e | e <;> subst e <;> decide
    · intro f hf g hg hfg n hn
      have hf2 : f = 101 ∨ f = 102 := by simpa [sample_instance] using hf
      have hg2 : g = 101 ∨ g = 102 := by simpa [sample_instance] using hg
      rcases hf2 with e1 | e1 <;> rcases hg2 with e2 | e2
      · exact absurd (e1.trans e2.symm) hfg
      · subst e1 e2
        have hn2 : n = 2 ∨ n = 5 := by simpa [sample_graph] using hn
        rcases hn2 with e | e <;> subst e <;> decide
      · subst e1 e2
        have hn2 : n = 1 ∨ n = 6 ∨ n = 3 ∨ n = 4 := by simpa [sample_graph] using hn
        rcases hn2 with e | e | e | e <;> subst e <;> decide
      · exact absurd (e1.trans e2.symm) hfg
  have h := compile_placement_index replacing_env 7 sample_world sample_instance sample_graph
    [2] [0, 1] rfl rfl (by decide) hsep replacing_env_local rfl
  ⟨by decide, hsep, replacing_env_local, by decide, by decide, by decide, by decide, h.1⟩

end ngraph
